import Mathlib

/-!
Verification of the OECS archetype-based entity component system core.

Each section embeds one module of the source (entity ID packing, the
generational entity allocator, the archetype sparse set, the archetype
registry with its transition-edge cache, the phase scheduler, the query
cache, and the deferred-mutation store) as executable Lean definitions,
and proves the specified properties about them.

JavaScript numeric conventions used throughout the embedding:
* typed-array indices and packed IDs are modelled as `Nat`;
* 32-bit wrapping arithmetic (`Math.imul`, `| 0`, `>>> 0`) is modelled
  with explicit `% 2 ^ 32`; signed/unsigned recoding is a bijection on
  32-bit words, so map keys built from these hashes bucket identically;
* `x & ((1 <<< n) - 1)` is `Nat.land`, `x >>> n` is `Nat.shiftRight`;
* a JS `Map` keyed by integers is modelled as a total function with a
  default value, a JS `Set` as an insertion-ordered duplicate-free list.
-/

namespace Oecs

/-- Error categories from `utils/error.ts` (`ECS_ERROR`). -/
inductive ECSErr where
  | EID_MAX_INDEX_OVERFLOW
  | EID_MAX_GEN_OVERFLOW
  | ENTITY_CANT_DESTROY_DEAD
  | COMPONENT_NOT_REGISTERED
  | ENTITY_NOT_ALIVE
  | ENTITY_NOT_IN_ARCHETYPE
  | CIRCULAR_SYSTEM_DEPENDENCY
  | DUPLICATE_SYSTEM
  | SYSTEM_NOT_FOUND
  | ARCHETYPE_NOT_FOUND
  deriving DecidableEq, Repr

/-! ## Entity ID packing (`entity/entity.ts`)

A packed ID is a 32-bit unsigned integer: low 20 bits are the slot
index, high 12 bits the generation. -/

def INDEX_BITS : Nat := 20

/-- `(1 << INDEX_BITS) - 1`, a bitmask of 20 ones. -/
def INDEX_MASK : Nat := (1 <<< INDEX_BITS) - 1

def MAX_INDEX : Nat := INDEX_MASK

/-- `(1 << (32 - INDEX_BITS)) - 1 = 0xFFF`. -/
def MAX_GENERATION : Nat := (1 <<< (32 - INDEX_BITS)) - 1

/-- `create_entity_id` with the `__DEV__` range assertions.  The packed
value `((generation << INDEX_BITS) | index) >>> 0` is below `2 ^ 32`
whenever the assertions pass, so the `>>> 0` unsigned cast is the
identity.  `index < 0` / `generation < 0` cannot arise for `Nat`. -/
def create_entity_id (index generation : Nat) : Except ECSErr Nat :=
  if index > MAX_INDEX then
    .error .EID_MAX_INDEX_OVERFLOW
  else if generation > MAX_GENERATION then
    .error .EID_MAX_GEN_OVERFLOW
  else
    .ok ((generation <<< INDEX_BITS) ||| index)

/-- Extract the slot index (low 20 bits): `id & INDEX_MASK`. -/
def get_entity_index (id : Nat) : Nat := id &&& INDEX_MASK

/-- Extract the generation (high 12 bits): `(id >>> INDEX_BITS) & MAX_GENERATION`. -/
def get_entity_generation (id : Nat) : Nat :=
  (id >>> INDEX_BITS) &&& MAX_GENERATION

theorem INDEX_MASK_eq : INDEX_MASK = 2 ^ 20 - 1 := by decide

theorem MAX_GENERATION_eq : MAX_GENERATION = 2 ^ 12 - 1 := by decide

/-- The packed word is the arithmetic combination `g * 2 ^ 20 + i` when
the index fits in its 20 bits. -/
theorem pack_eq_arith (i g : Nat) (hi : i ≤ MAX_INDEX) :
    (g <<< INDEX_BITS) ||| i = g * 2 ^ 20 + i := by
  have hmask : i < 2 ^ 20 := by
    have := INDEX_MASK_eq
    simp only [MAX_INDEX] at hi
    omega
  have hsh : g <<< INDEX_BITS = g * 2 ^ 20 := by
    simp [INDEX_BITS, Nat.shiftLeft_eq]
  rw [hsh, Nat.mul_comm g, ← Nat.mul_add_lt_is_or hmask, Nat.mul_comm]

/-- Round-trip: unpacking the index from a packed ID. -/
theorem get_entity_index_pack (i g : Nat) (hi : i ≤ MAX_INDEX) :
    get_entity_index ((g <<< INDEX_BITS) ||| i) = i := by
  rw [pack_eq_arith i g hi]
  have hmask : i < 2 ^ 20 := by
    have := INDEX_MASK_eq
    simp only [MAX_INDEX] at hi
    omega
  simp only [get_entity_index, INDEX_MASK, INDEX_BITS]
  have h20 : (1 <<< 20 : Nat) - 1 = 2 ^ 20 - 1 := by decide
  rw [h20, Nat.and_pow_two_sub_one_eq_mod, Nat.mul_comm g, Nat.mul_add_mod,
    Nat.mod_eq_of_lt hmask]

/-- Round-trip: unpacking the generation from a packed ID. -/
theorem get_entity_generation_pack (i g : Nat) (hi : i ≤ MAX_INDEX)
    (hg : g ≤ MAX_GENERATION) :
    get_entity_generation ((g <<< INDEX_BITS) ||| i) = g := by
  rw [pack_eq_arith i g hi]
  have hmask : i < 2 ^ 20 := by
    have := INDEX_MASK_eq
    simp only [MAX_INDEX] at hi
    omega
  have hgen : g < 2 ^ 12 := by
    have := MAX_GENERATION_eq
    omega
  simp only [get_entity_generation, MAX_GENERATION, INDEX_BITS]
  have h12 : (1 <<< (32 - 20) : Nat) - 1 = 2 ^ 12 - 1 := by decide
  rw [h12, Nat.and_pow_two_sub_one_eq_mod, Nat.shiftRight_eq_div_pow]
  rw [Nat.mul_comm g, Nat.mul_add_div (by positivity),
    Nat.div_eq_of_lt hmask, Nat.add_zero, Nat.mod_eq_of_lt hgen]

/-- Every extracted index fits the 20-bit budget. -/
theorem get_entity_index_le (id : Nat) : get_entity_index id ≤ MAX_INDEX :=
  Nat.and_le_right

/-- Every extracted generation fits the 12-bit budget. -/
theorem get_entity_generation_le (id : Nat) :
    get_entity_generation id ≤ MAX_GENERATION :=
  Nat.and_le_right

/-! ## EntityRegistry (`entity/entity_registry.ts`)

The generational allocator.  The `generations` Uint16Array is modelled
as a total function (capacity growth by doubling is semantically
transparent; fresh cells read 0).  The JS free list pushes and pops at
the back of an array; it is modelled head-first, so the head of
`free_indices` is the top of the LIFO stack. -/

structure EntityRegistryState where
  generations : Nat → Nat
  high_water : Nat
  free_indices : List Nat
  alive_count : Nat

/-- `is_alive`: index in allocated range and stored generation matches
the one baked into the ID. -/
def EntityRegistryState.is_alive (s : EntityRegistryState) (id : Nat) : Bool :=
  decide (get_entity_index id < s.high_water ∧
    s.generations (get_entity_index id) = get_entity_generation id)

/-- `create_entity`: pop a recycled slot (its generation was bumped
during destroy) or advance the high-water mark with a fresh generation
of 0, then pack the ID. -/
def EntityRegistryState.create_entity (s : EntityRegistryState) :
    Except ECSErr (Nat × EntityRegistryState) :=
  match s.free_indices with
  | index :: rest =>
    match create_entity_id index (s.generations index) with
    | .error e => .error e
    | .ok id =>
      .ok (id, { s with free_indices := rest, alive_count := s.alive_count + 1 })
  | [] =>
    match create_entity_id s.high_water 0 with
    | .error e => .error e
    | .ok id =>
      .ok (id, { s with
        generations := fun j => if j = s.high_water then 0 else s.generations j,
        high_water := s.high_water + 1,
        alive_count := s.alive_count + 1 })

/-- `destroy` with the `__DEV__` double-destroy assertion: bump the
generation modulo 2¹² (`& MAX_GENERATION`), push the slot on the free
list, decrement the live count. -/
def EntityRegistryState.destroy (s : EntityRegistryState) (id : Nat) :
    Except ECSErr EntityRegistryState :=
  let index := get_entity_index id
  let generation := get_entity_generation id
  if index ≥ s.high_water ∨ s.generations index ≠ generation then
    .error .ENTITY_CANT_DESTROY_DEAD
  else
    .ok { s with
      generations := fun j =>
        if j = index then (generation + 1) &&& MAX_GENERATION
        else s.generations j,
      free_indices := index :: s.free_indices,
      alive_count := s.alive_count - 1 }

/-- The slot that the next `create_entity` would allocate. -/
def EntityRegistryState.next_index (s : EntityRegistryState) : Nat :=
  match s.free_indices with
  | index :: _ => index
  | [] => s.high_water

/-- The generation the next `create_entity` would use. -/
def EntityRegistryState.next_generation (s : EntityRegistryState) : Nat :=
  match s.free_indices with
  | index :: _ => s.generations index
  | [] => 0

/-- C5. Destroy-then-create reuses the slot with the generation bumped
modulo 2¹²; the stale ID is dead and the fresh one alive. -/
theorem entity_recycle_roundtrip (s : EntityRegistryState) (e1 : Nat)
    (h : s.is_alive e1 = true) :
    ∃ s1 e2 s2,
      s.destroy e1 = .ok s1 ∧
      s1.create_entity = .ok (e2, s2) ∧
      get_entity_index e2 = get_entity_index e1 ∧
      get_entity_generation e2 = (get_entity_generation e1 + 1) % 2 ^ 12 ∧
      s2.is_alive e1 = false ∧
      s2.is_alive e2 = true := by
  simp only [EntityRegistryState.is_alive, decide_eq_true_eq] at h
  obtain ⟨hlt, hgen⟩ := h
  set i := get_entity_index e1 with hi
  set g := get_entity_generation e1 with hg
  have hmask12 : ((g + 1) &&& MAX_GENERATION) = (g + 1) % 2 ^ 12 := by
    rw [MAX_GENERATION_eq, Nat.and_pow_two_sub_one_eq_mod]
  have hgle : g ≤ MAX_GENERATION := get_entity_generation_le e1
  have hile : i ≤ MAX_INDEX := get_entity_index_le e1
  have hbump_le : (g + 1) % 2 ^ 12 ≤ MAX_GENERATION := by
    rw [MAX_GENERATION_eq]
    have := Nat.mod_lt (g + 1) (y := 2 ^ 12) (by norm_num)
    omega
  have hbump_le' : ((g + 1) &&& MAX_GENERATION) ≤ MAX_GENERATION := by
    rw [hmask12]; exact hbump_le
  -- the state after destroy, the recycled ID, and the state after create
  refine ⟨{ s with
      generations := fun j =>
        if j = i then (g + 1) &&& MAX_GENERATION else s.generations j,
      free_indices := i :: s.free_indices,
      alive_count := s.alive_count - 1 },
    (((g + 1) &&& MAX_GENERATION) <<< INDEX_BITS) ||| i,
    { s with
      generations := fun j =>
        if j = i then (g + 1) &&& MAX_GENERATION else s.generations j,
      free_indices := s.free_indices,
      alive_count := s.alive_count - 1 + 1 },
    ?_, ?_, ?_, ?_, ?_, ?_⟩
  · simp only [EntityRegistryState.destroy, ← hi, ← hg]
    rw [if_neg (by push_neg; exact ⟨by omega, hgen⟩)]
  · -- create pops slot `i`, whose generation was bumped by destroy
    have hA : ¬ (i > MAX_INDEX) := by omega
    have hB : ¬ ((g + 1) &&& MAX_GENERATION > MAX_GENERATION) := by omega
    simp [EntityRegistryState.create_entity, create_entity_id, hA, hB]
  · exact get_entity_index_pack i _ hile
  · rw [get_entity_generation_pack i _ hile hbump_le', hmask12]
  · -- the stale ID no longer matches the bumped generation
    simp only [EntityRegistryState.is_alive, ← hi, ← hg, decide_eq_false_iff_not]
    push_neg
    intro _
    simp only [if_true, hmask12]
    rcases Nat.lt_or_ge (g + 1) (2 ^ 12) with hc | hc
    · rw [Nat.mod_eq_of_lt hc]; omega
    · have hge : g = 2 ^ 12 - 1 := by rw [MAX_GENERATION_eq] at hgle; omega
      rw [hge]
      norm_num
  · -- the fresh ID is alive: same slot, bumped generation
    simp only [EntityRegistryState.is_alive, decide_eq_true_eq]
    rw [get_entity_index_pack i _ hile,
      get_entity_generation_pack i _ hile hbump_le']
    exact ⟨by simpa using hlt, by simp⟩

/-- C5 witness: a concrete allocator state holding one live entity. -/
theorem entity_recycle_roundtrip_witness :
    (EntityRegistryState.is_alive ⟨fun _ => 0, 1, [], 1⟩ 0 = true) ∧
    ∃ s1 e2 s2,
      EntityRegistryState.destroy ⟨fun _ => 0, 1, [], 1⟩ 0 = .ok s1 ∧
      s1.create_entity = .ok (e2, s2) ∧
      get_entity_index e2 = get_entity_index 0 ∧
      get_entity_generation e2 = (get_entity_generation 0 + 1) % 2 ^ 12 ∧
      s2.is_alive 0 = false ∧
      s2.is_alive e2 = true :=
  ⟨by decide, entity_recycle_roundtrip ⟨fun _ => 0, 1, [], 1⟩ 0 (by decide)⟩

/-- The state `create_entity` leaves behind on success. -/
def EntityRegistryState.after_create (s : EntityRegistryState) :
    EntityRegistryState :=
  match s.free_indices with
  | _ :: rest => { s with free_indices := rest, alive_count := s.alive_count + 1 }
  | [] => { s with
      generations := fun j => if j = s.high_water then 0 else s.generations j,
      high_water := s.high_water + 1,
      alive_count := s.alive_count + 1 }

theorem MAX_INDEX_eq : MAX_INDEX = 2 ^ 20 - 1 := INDEX_MASK_eq

/-- Closed form of `create_entity` in terms of the next slot/generation. -/
theorem create_entity_eq (s : EntityRegistryState) :
    s.create_entity =
      if 2 ^ 20 ≤ s.next_index then .error .EID_MAX_INDEX_OVERFLOW
      else if 2 ^ 12 ≤ s.next_generation then .error .EID_MAX_GEN_OVERFLOW
      else .ok ((s.next_generation <<< INDEX_BITS) ||| s.next_index,
        s.after_create) := by
  have hmax := MAX_INDEX_eq
  have hgen := MAX_GENERATION_eq
  rcases hf : s.free_indices with - | ⟨index, rest⟩
  · simp only [EntityRegistryState.create_entity, EntityRegistryState.next_index,
      EntityRegistryState.next_generation, EntityRegistryState.after_create,
      hf, create_entity_id]
    by_cases h1 : s.high_water > MAX_INDEX
    · simp [h1]
      rw [if_pos (by omega)]
    · simp [h1, show ¬ ((0 : Nat) > MAX_GENERATION) by decide]
      rw [if_neg (by omega)]
  · simp only [EntityRegistryState.create_entity, EntityRegistryState.next_index,
      EntityRegistryState.next_generation, EntityRegistryState.after_create,
      hf, create_entity_id]
    by_cases h1 : index > MAX_INDEX
    · simp [h1]
      rw [if_pos (by omega)]
    · by_cases h2 : s.generations index > MAX_GENERATION
      · simp [h1, h2]
        rw [if_neg (by omega), if_pos (by omega)]
      · simp [h1, h2]
        rw [if_neg (by omega), if_neg (by omega)]

/-- C9. `create_entity` raises the capacity-overflow error exactly when
the allocated slot index no longer fits the 20-bit slot space (index
≥ 2²⁰, i.e. the slot count would exceed 2²⁰), raises the
generation-overflow error exactly when the slot's stored generation no
longer fits 12 bits (generation ≥ 2¹²), and otherwise returns the
packed ID. -/
theorem create_entity_overflow_characterization (s : EntityRegistryState) :
    (s.create_entity = .error .EID_MAX_INDEX_OVERFLOW ↔
      2 ^ 20 ≤ s.next_index) ∧
    (s.create_entity = .error .EID_MAX_GEN_OVERFLOW ↔
      (s.next_index < 2 ^ 20 ∧ 2 ^ 12 ≤ s.next_generation)) ∧
    (s.next_index < 2 ^ 20 → s.next_generation < 2 ^ 12 →
      s.create_entity =
        .ok ((s.next_generation <<< INDEX_BITS) ||| s.next_index,
          s.after_create)) := by
  rw [create_entity_eq]
  by_cases h1 : 2 ^ 20 ≤ s.next_index
  · rw [if_pos h1]
    exact ⟨⟨fun _ => h1, fun _ => rfl⟩,
      ⟨fun h => absurd h (by simp), fun h => absurd h1 (by omega)⟩,
      fun hx _ => absurd h1 (by omega)⟩
  · rw [if_neg h1]
    by_cases h2 : 2 ^ 12 ≤ s.next_generation
    · rw [if_pos h2]
      exact ⟨⟨fun h => absurd h (by simp), fun h => absurd h (by omega)⟩,
        ⟨fun _ => ⟨by omega, h2⟩, fun _ => rfl⟩,
        fun _ hy => absurd h2 (by omega)⟩
    · rw [if_neg h2]
      exact ⟨⟨fun h => absurd h (by simp), fun h => absurd h (by omega)⟩,
        ⟨fun h => absurd h (by simp), fun h => absurd h2 (by omega)⟩,
        fun _ _ => rfl⟩

/-- C9 witness: an allocator whose free list tops a slot with an
overflowed stored generation; the characterization is applied there and
the generation-overflow branch fires. -/
theorem create_entity_overflow_characterization_witness :
    EntityRegistryState.create_entity ⟨fun _ => 4096, 1, [0], 0⟩ =
      .error .EID_MAX_GEN_OVERFLOW :=
  (create_entity_overflow_characterization
    ⟨fun _ => 4096, 1, [0], 0⟩).2.1.mpr (by decide)

/-! ## Archetype sparse set (`archetype/archetype.ts`)

Entity membership: `entity_ids` (dense, rows `0..len-1`; the valid
prefix of the backing Uint32Array — capacity growth by doubling is
semantically transparent) and `index_to_row` (sparse `entity_index →
row`, sentinel `-1`; modelled as a total function, matching the
grown-with-`-1` typed array and folding in the JS bounds check, since
out-of-range reads of an Int32Array filled with the sentinel behave as
absent). -/

structure ArchetypeState where
  entity_ids : List Nat
  index_to_row : Nat → Int

/-- `add_entity`: write `entity_ids[count] = id`,
`index_to_row[entity_index] = count`, increment count. -/
def ArchetypeState.add_entity (a : ArchetypeState)
    (entity_id entity_index : Nat) : ArchetypeState :=
  { entity_ids := a.entity_ids ++ [entity_id],
    index_to_row := fun j =>
      if j = entity_index then (a.entity_ids.length : Int)
      else a.index_to_row j }

/-- `remove_entity` (swap-and-pop) with the `__DEV__` membership
assertion.  In the source, `row` is read first, then
`index_to_row[entity_index] = EMPTY_ROW`, then (when a swap happens)
`index_to_row[swapped_index] = row`; the nested conditional mirrors
that write order (a later write wins).  Returns the swapped-in
entity's index, or `-1` when the removed row was the tail. -/
def ArchetypeState.remove_entity (a : ArchetypeState) (entity_index : Nat) :
    Except ECSErr (Int × ArchetypeState) :=
  if a.index_to_row entity_index = -1 then
    .error .ENTITY_NOT_IN_ARCHETYPE
  else if (a.index_to_row entity_index).toNat ≠ a.entity_ids.length - 1 then
    .ok ((get_entity_index (a.entity_ids.getD (a.entity_ids.length - 1) 0) : Int),
      { entity_ids := (a.entity_ids.set (a.index_to_row entity_index).toNat
          (a.entity_ids.getD (a.entity_ids.length - 1) 0)).dropLast,
        index_to_row := fun j =>
          if j = get_entity_index (a.entity_ids.getD (a.entity_ids.length - 1) 0)
          then ((a.index_to_row entity_index).toNat : Int)
          else if j = entity_index then -1
          else a.index_to_row j })
  else
    .ok (-1,
      { entity_ids := a.entity_ids.dropLast,
        index_to_row := fun j =>
          if j = entity_index then -1 else a.index_to_row j })

/-- Sparse-set consistency: every dense row round-trips through
`index_to_row`, and every non-sentinel sparse cell points at a dense
row holding an entity with that slot (so slots not present map to
`-1`). -/
def ArchInv (a : ArchetypeState) : Prop :=
  (∀ (r : Nat) (e : Nat), a.entity_ids[r]? = some e →
      a.index_to_row (get_entity_index e) = (r : Int)) ∧
  (∀ s : Nat, a.index_to_row s ≠ -1 →
      ∃ (r : Nat) (e : Nat), a.index_to_row s = (r : Int) ∧
        a.entity_ids[r]? = some e ∧ get_entity_index e = s)

/-- States reachable from a fresh archetype through `add_entity` (under
the Store's calling contract: the slot is the ID's packed index and is
not yet present) and through successful `remove_entity`. -/
inductive ArchReachable : ArchetypeState → Prop where
  | init : ArchReachable ⟨[], fun _ => -1⟩
  | add (a : ArchetypeState) (e : Nat) : ArchReachable a →
      a.index_to_row (get_entity_index e) = -1 →
      ArchReachable (a.add_entity e (get_entity_index e))
  | rem (a : ArchetypeState) (s : Nat) (ret : Int) (a' : ArchetypeState) :
      ArchReachable a → a.remove_entity s = .ok (ret, a') →
      ArchReachable a'

theorem archInv_add (a : ArchetypeState) (e : Nat) (hinv : ArchInv a)
    (habs : a.index_to_row (get_entity_index e) = -1) :
    ArchInv (a.add_entity e (get_entity_index e)) := by
  obtain ⟨h1, h2⟩ := hinv
  constructor
  · intro r x hx
    simp only [ArchetypeState.add_entity] at hx ⊢
    rcases Nat.lt_or_ge r a.entity_ids.length with hr | hr
    · rw [List.getElem?_append_left hr] at hx
      have hne : get_entity_index x ≠ get_entity_index e := by
        intro hcontra
        have hrr := h1 r x hx
        rw [hcontra, habs] at hrr
        omega
      rw [if_neg hne]
      exact h1 r x hx
    · rw [List.getElem?_append_right hr] at hx
      have hr0 : r - a.entity_ids.length = 0 := by
        by_contra hc
        rcases Nat.exists_eq_succ_of_ne_zero hc with ⟨k, hk⟩
        rw [hk] at hx
        simp at hx
      rw [hr0] at hx
      simp only [List.getElem?_cons_zero, Option.some.injEq] at hx
      subst hx
      rw [if_pos rfl]
      have hre : r = a.entity_ids.length := by omega
      omega
  · intro s hs
    simp only [ArchetypeState.add_entity] at hs ⊢
    by_cases hse : s = get_entity_index e
    · subst hse
      refine ⟨a.entity_ids.length, e, by simp, ?_, rfl⟩
      rw [List.getElem?_concat_length]
    · rw [if_neg hse] at hs
      obtain ⟨r, x, hr, hx, hxs⟩ := h2 s hs
      have hrlen : r < a.entity_ids.length := by
        by_contra hc
        rw [List.getElem?_eq_none (by omega)] at hx
        simp at hx
      exact ⟨r, x, by rw [if_neg hse]; exact hr,
        by rw [List.getElem?_append_left hrlen]; exact hx, hxs⟩

theorem archInv_rem (a : ArchetypeState) (s : Nat) (ret : Int)
    (a' : ArchetypeState) (hinv : ArchInv a)
    (hok : a.remove_entity s = .ok (ret, a')) : ArchInv a' := by
  obtain ⟨h1, h2⟩ := hinv
  simp only [ArchetypeState.remove_entity] at hok
  by_cases habs : a.index_to_row s = -1
  · rw [if_pos habs] at hok
    exact absurd hok (by simp)
  rw [if_neg habs] at hok
  obtain ⟨rs, es, hrs, hes, hess⟩ := h2 s habs
  have hrow : (a.index_to_row s).toNat = rs := by rw [hrs]; simp
  have hrs_lt : rs < a.entity_ids.length := by
    by_contra hc
    rw [List.getElem?_eq_none (by omega)] at hes
    simp at hes
  by_cases hcase : (a.index_to_row s).toNat ≠ a.entity_ids.length - 1
  · -- swap case: the tail row moves into the removed row
    rw [if_pos hcase] at hok
    rw [hrow] at hcase hok
    simp only [Except.ok.injEq, Prod.mk.injEq] at hok
    obtain ⟨hret, ha'⟩ := hok
    -- the entity at the tail row
    obtain ⟨el, hel⟩ : ∃ el,
        a.entity_ids[a.entity_ids.length - 1]? = some el := by
      cases h : a.entity_ids[a.entity_ids.length - 1]? with
      | none =>
        rw [List.getElem?_eq_none_iff] at h
        omega
      | some x => exact ⟨x, rfl⟩
    have helD : a.entity_ids.getD (a.entity_ids.length - 1) 0 = el := by
      rw [List.getD_eq_getElem?_getD, hel]
      rfl
    have hitr_el : a.index_to_row (get_entity_index el) =
        ((a.entity_ids.length - 1 : Nat) : Int) :=
      h1 _ el hel
    have hel_ne_s : get_entity_index el ≠ s := by
      intro hcontra
      rw [hcontra, hrs] at hitr_el
      omega
    rw [helD] at ha'
    subst ha'
    constructor
    · intro r x hx
      simp only [List.getElem?_dropLast, List.length_set] at hx
      by_cases hrlt : r < a.entity_ids.length - 1
      · rw [if_pos hrlt] at hx
        by_cases hrr : r = rs
        · subst hrr
          rw [List.getElem?_set_self hrs_lt] at hx
          obtain hx := Option.some.inj hx
          subst hx
          dsimp only
          rw [if_pos rfl]
        · rw [List.getElem?_set_ne (by omega)] at hx
          have hfx := h1 r x hx
          have hne1 : get_entity_index x ≠ get_entity_index el := by
            intro hcontra
            rw [hcontra, hitr_el] at hfx
            omega
          have hne2 : get_entity_index x ≠ s := by
            intro hcontra
            rw [hcontra, hrs] at hfx
            omega
          dsimp only
          rw [if_neg hne1, if_neg hne2]
          exact hfx
      · rw [if_neg hrlt] at hx
        simp at hx
    · intro t ht
      dsimp only at ht ⊢
      by_cases htel : t = get_entity_index el
      · subst htel
        refine ⟨rs, el, by rw [if_pos rfl], ?_, rfl⟩
        simp only [List.getElem?_dropLast, List.length_set]
        rw [if_pos (by omega), List.getElem?_set_self hrs_lt]
      · rw [if_neg htel] at ht ⊢
        by_cases hts : t = s
        · subst hts
          rw [if_pos rfl] at ht
          exact absurd rfl ht
        · rw [if_neg hts] at ht ⊢
          obtain ⟨r, x, hr, hx, hxs⟩ := h2 t ht
          have hrlen : r < a.entity_ids.length := by
            by_contra hc
            rw [List.getElem?_eq_none (by omega)] at hx
            simp at hx
          have hr_ne_rs : r ≠ rs := by
            intro hcontra
            subst hcontra
            rw [hx] at hes
            obtain hxe := Option.some.inj hes
            subst hxe
            exact hts (by rw [← hxs, hess])
          have hr_ne_last : r ≠ a.entity_ids.length - 1 := by
            intro hcontra
            subst hcontra
            rw [hx] at hel
            obtain hel := Option.some.inj hel
            subst hel
            exact htel hxs.symm
          refine ⟨r, x, hr, ?_, hxs⟩
          simp only [List.getElem?_dropLast, List.length_set]
          rw [if_pos (by omega), List.getElem?_set_ne (by omega)]
          exact hx
  · -- tail case: no swap
    rw [if_neg hcase] at hok
    push_neg at hcase
    rw [hrow] at hcase
    simp only [Except.ok.injEq, Prod.mk.injEq] at hok
    obtain ⟨hret, ha'⟩ := hok
    subst ha'
    constructor
    · intro r x hx
      simp only [List.getElem?_dropLast] at hx
      by_cases hrlt : r < a.entity_ids.length - 1
      · rw [if_pos hrlt] at hx
        have hfx := h1 r x hx
        have hne : get_entity_index x ≠ s := by
          intro hcontra
          rw [hcontra, hrs] at hfx
          omega
        dsimp only
        rw [if_neg hne]
        exact hfx
      · rw [if_neg hrlt] at hx
        simp at hx
    · intro t ht
      dsimp only at ht ⊢
      by_cases hts : t = s
      · subst hts
        rw [if_pos rfl] at ht
        exact absurd rfl ht
      · rw [if_neg hts] at ht ⊢
        obtain ⟨r, x, hr, hx, hxs⟩ := h2 t ht
        have hrlen : r < a.entity_ids.length := by
          by_contra hc
          rw [List.getElem?_eq_none (by omega)] at hx
          simp at hx
        have hr_ne : r ≠ a.entity_ids.length - 1 := by
          intro hcontra
          subst hcontra
          rw [hcase] at hes
          rw [hx] at hes
          obtain hxe := Option.some.inj hes
          subst hxe
          exact hts (by rw [← hxs, hess])
        refine ⟨r, x, hr, ?_, hxs⟩
        simp only [List.getElem?_dropLast]
        rw [if_pos (by omega)]
        exact hx

/-- C2. Sparse-set consistency: in every state reachable through
`add_entity` and `remove_entity`, each entity at row `r` with slot `s`
satisfies `entity_ids[r]` is its packed ID with `index_to_row[s] = r`,
and `index_to_row` is `-1` for every slot not present; both operations
preserve the invariant. -/
theorem archetype_sparse_set_invariant (a : ArchetypeState)
    (h : ArchReachable a) : ArchInv a := by
  induction h with
  | init =>
    constructor
    · intro r e hre
      simp at hre
    · intro s hs
      simp at hs
  | add a e _ habs ih => exact archInv_add a e ih habs
  | rem a s ret a' _ hok ih => exact archInv_rem a s ret a' ih hok

/-- C2 witness: a concrete two-entity archetype reached by two adds. -/
theorem archetype_sparse_set_invariant_witness :
    ArchInv (((⟨[], fun _ => -1⟩ : ArchetypeState).add_entity 5
      (get_entity_index 5)).add_entity 7 (get_entity_index 7)) := by
  have hstep1 : ArchReachable ((⟨[], fun _ => -1⟩ : ArchetypeState).add_entity 5
      (get_entity_index 5)) :=
    .add _ 5 .init rfl
  exact archetype_sparse_set_invariant _ (.add _ 7 hstep1 (by decide))

/-! ## Archetype with dense columns (spec §3, §4.4)

Modelled from the spec: the repository's current `archetype.ts` with
archetype-owned dense per-field columns is absent from `src/` (the
`Archetype` file present is the metadata-only sparse set embedded
above; its row-indexed column accessors `get_column` / `read_field`
appear only in tests and in the query layer).  Following the spec's
words, every component field owns a typed column semantically valid on
rows `0..count-1`, and swap-and-pop copies row `last` into row `r` for
`entity_ids` and every column of every component.  Membership fields
mirror the source `Archetype` exactly. -/

structure SpecArchetype where
  entity_ids : List Nat
  index_to_row : Nat → Int
  columns : Nat → Nat → Nat → Nat

/-- The membership (sparse-set) part of a column archetype: exactly the
source `Archetype` state. -/
def SpecArchetype.membership (A : SpecArchetype) : ArchetypeState :=
  ⟨A.entity_ids, A.index_to_row⟩

/-- Modelled from the spec: `remove_entity(slot)` — read `r` and
`last`, set `index_to_row[slot] = -1`; when `r != last` copy row `last`
into row `r` for `entity_ids` and for every column of every component
(`columns c f`), update the moved entity's sparse cell, return its
slot; else return `-1`; decrement count. -/
def SpecArchetype.remove_entity (A : SpecArchetype) (entity_index : Nat) :
    Except ECSErr (Int × SpecArchetype) :=
  if A.index_to_row entity_index = -1 then
    .error .ENTITY_NOT_IN_ARCHETYPE
  else if (A.index_to_row entity_index).toNat ≠ A.entity_ids.length - 1 then
    .ok ((get_entity_index (A.entity_ids.getD (A.entity_ids.length - 1) 0) : Int),
      { entity_ids := (A.entity_ids.set (A.index_to_row entity_index).toNat
          (A.entity_ids.getD (A.entity_ids.length - 1) 0)).dropLast,
        index_to_row := fun j =>
          if j = get_entity_index (A.entity_ids.getD (A.entity_ids.length - 1) 0)
          then ((A.index_to_row entity_index).toNat : Int)
          else if j = entity_index then -1
          else A.index_to_row j,
        columns := fun c f r =>
          if r = (A.index_to_row entity_index).toNat
          then A.columns c f (A.entity_ids.length - 1)
          else A.columns c f r })
  else
    .ok (-1,
      { entity_ids := A.entity_ids.dropLast,
        index_to_row := fun j =>
          if j = entity_index then -1 else A.index_to_row j,
        columns := A.columns })

/-- C3. Swap-and-pop on a column archetype: `index_to_row[slot]`
becomes `-1`, the count decrements, and when the removed row is not the
tail, row `last` is copied into row `r` for `entity_ids` and for every
column of every component, every other surviving row keeps its data,
the moved entity's sparse cell becomes `r` and its slot is returned;
when the removed row is the tail the result is `-1`.  The membership
projection agrees with the source `Archetype.remove_entity`. -/
theorem spec_archetype_remove_entity (A : SpecArchetype) (s : Nat)
    (hinv : ArchInv A.membership) (hs : A.index_to_row s ≠ -1) :
    ∃ ret A', A.remove_entity s = .ok (ret, A') ∧
      A'.index_to_row s = -1 ∧
      A'.entity_ids.length = A.entity_ids.length - 1 ∧
      A.membership.remove_entity s = .ok (ret, A'.membership) ∧
      ((A.index_to_row s).toNat ≠ A.entity_ids.length - 1 →
        A'.entity_ids[(A.index_to_row s).toNat]? =
          A.entity_ids[A.entity_ids.length - 1]? ∧
        (∀ c f, A'.columns c f (A.index_to_row s).toNat =
          A.columns c f (A.entity_ids.length - 1)) ∧
        (∀ c f r, r ≠ (A.index_to_row s).toNat →
          A'.columns c f r = A.columns c f r) ∧
        (∀ r, r < A.entity_ids.length - 1 → r ≠ (A.index_to_row s).toNat →
          A'.entity_ids[r]? = A.entity_ids[r]?) ∧
        A'.index_to_row
          (get_entity_index (A.entity_ids.getD (A.entity_ids.length - 1) 0)) =
            ((A.index_to_row s).toNat : Int) ∧
        ret = (get_entity_index
          (A.entity_ids.getD (A.entity_ids.length - 1) 0) : Int)) ∧
      ((A.index_to_row s).toNat = A.entity_ids.length - 1 → ret = -1) := by
  obtain ⟨h1, h2⟩ := hinv
  simp only [SpecArchetype.membership] at h1 h2
  obtain ⟨rs, es, hrs, hes, hess⟩ := h2 s hs
  have hrow : (A.index_to_row s).toNat = rs := by rw [hrs]; simp
  have hrs_lt : rs < A.entity_ids.length := by
    by_contra hc
    rw [List.getElem?_eq_none (by omega)] at hes
    simp at hes
  by_cases hcase : (A.index_to_row s).toNat ≠ A.entity_ids.length - 1
  · -- swap case
    obtain ⟨el, hel⟩ : ∃ el,
        A.entity_ids[A.entity_ids.length - 1]? = some el := by
      cases h : A.entity_ids[A.entity_ids.length - 1]? with
      | none =>
        rw [List.getElem?_eq_none_iff] at h
        omega
      | some x => exact ⟨x, rfl⟩
    have helD : A.entity_ids.getD (A.entity_ids.length - 1) 0 = el := by
      rw [List.getD_eq_getElem?_getD, hel]
      rfl
    have hitr_el : A.index_to_row (get_entity_index el) =
        ((A.entity_ids.length - 1 : Nat) : Int) :=
      h1 _ el hel
    have hel_ne_s : get_entity_index el ≠ s := by
      intro hcontra
      rw [hcontra, hrs] at hitr_el
      omega
    refine ⟨(get_entity_index (A.entity_ids.getD (A.entity_ids.length - 1) 0) : Int),
      { entity_ids := (A.entity_ids.set (A.index_to_row s).toNat
          (A.entity_ids.getD (A.entity_ids.length - 1) 0)).dropLast,
        index_to_row := fun j =>
          if j = get_entity_index (A.entity_ids.getD (A.entity_ids.length - 1) 0)
          then ((A.index_to_row s).toNat : Int)
          else if j = s then -1
          else A.index_to_row j,
        columns := fun c f r =>
          if r = (A.index_to_row s).toNat
          then A.columns c f (A.entity_ids.length - 1)
          else A.columns c f r },
      ?_, ?_, ?_, ?_, ?_, ?_⟩
    · simp only [SpecArchetype.remove_entity]
      rw [if_neg hs, if_pos hcase]
    · dsimp only
      rw [helD, if_neg (fun h => hel_ne_s h.symm), if_pos rfl]
    · simp [List.length_set]
    · simp only [ArchetypeState.remove_entity, SpecArchetype.membership]
      rw [if_neg hs, if_pos hcase]
    · intro _
      refine ⟨?_, ?_, ?_, ?_, ?_, rfl⟩
      · dsimp only
        rw [hrow]
        simp only [List.getElem?_dropLast, List.length_set]
        rw [if_pos (by omega), List.getElem?_set_self hrs_lt, helD, hel]
      · intro c f
        dsimp only
        rw [if_pos rfl]
      · intro c f r hr
        dsimp only
        rw [if_neg hr]
      · intro r hrl hrne
        dsimp only
        rw [hrow] at hrne ⊢
        simp only [List.getElem?_dropLast, List.length_set]
        rw [if_pos (by omega), List.getElem?_set_ne (by omega)]
      · dsimp only
        rw [if_pos rfl]
    · intro hcontra
      exact absurd hcontra hcase
  · -- tail case
    push_neg at hcase
    refine ⟨-1,
      { entity_ids := A.entity_ids.dropLast,
        index_to_row := fun j => if j = s then -1 else A.index_to_row j,
        columns := A.columns },
      ?_, ?_, ?_, ?_, ?_, ?_⟩
    · simp only [SpecArchetype.remove_entity]
      rw [if_neg hs, if_neg (by omega)]
    · dsimp only
      rw [if_pos rfl]
    · simp
    · simp only [ArchetypeState.remove_entity, SpecArchetype.membership]
      rw [if_neg hs, if_neg (by omega)]
    · intro hcontra
      exact absurd hcase hcontra
    · intro _
      rfl

/-- C3 witness: removing row 0 of a concrete two-row archetype (built
by two adds) carrying one populated column. -/
theorem spec_archetype_remove_entity_witness :
    ∃ ret A',
      SpecArchetype.remove_entity
        ⟨(((⟨[], fun _ => -1⟩ : ArchetypeState).add_entity 3
            (get_entity_index 3)).add_entity 4 (get_entity_index 4)).entity_ids,
         (((⟨[], fun _ => -1⟩ : ArchetypeState).add_entity 3
            (get_entity_index 3)).add_entity 4 (get_entity_index 4)).index_to_row,
         fun _ _ r => 10 + r⟩ 3 = .ok (ret, A') ∧
      A'.index_to_row 3 = -1 := by
  have hreach : ArchReachable (((⟨[], fun _ => -1⟩ : ArchetypeState).add_entity 3
      (get_entity_index 3)).add_entity 4 (get_entity_index 4)) :=
    .add _ 4 (.add _ 3 .init rfl) (by decide)
  obtain ⟨ret, A', hok, hitr, -⟩ :=
    spec_archetype_remove_entity
      ⟨(((⟨[], fun _ => -1⟩ : ArchetypeState).add_entity 3
          (get_entity_index 3)).add_entity 4 (get_entity_index 4)).entity_ids,
       (((⟨[], fun _ => -1⟩ : ArchetypeState).add_entity 3
          (get_entity_index 3)).add_entity 4 (get_entity_index 4)).index_to_row,
       fun _ _ r => 10 + r⟩ 3
      (archetype_sparse_set_invariant _ hreach) (by decide)
  exact ⟨ret, A', hok, hitr⟩

/-! ## Binary search on a sorted signature (`archetype/archetype.ts`)

The `lo/hi` loop with `mid = (lo + hi) >>> 1`; `hi` starts at
`length - 1` and can go to `-1`, so it is an `Int`.  Both operands of
the shift stay within array bounds, so `>>> 1` is the floor average. -/

def binary_search_go (sorted : List Nat) (tgt : Nat) (lo : Nat) (hi : Int) :
    Int :=
  if h : (lo : Int) ≤ hi then
    if sorted.getD (((lo : Int) + hi) / 2).toNat 0 = tgt then
      ((lo : Int) + hi) / 2
    else if sorted.getD (((lo : Int) + hi) / 2).toNat 0 < tgt then
      binary_search_go sorted tgt ((((lo : Int) + hi) / 2).toNat + 1) hi
    else
      binary_search_go sorted tgt lo (((lo : Int) + hi) / 2 - 1)
  else
    -1
termination_by (hi + 1 - (lo : Int)).toNat
decreasing_by
  · omega
  · omega

/-- `binary_search`: index of `tgt` in the sorted array, `-1` if absent. -/
def binary_search (sorted : List Nat) (tgt : Nat) : Int :=
  binary_search_go sorted tgt 0 ((sorted.length : Int) - 1)

theorem binary_search_go_found (sorted : List Nat) (tgt : Nat)
    (lo : Nat) (hi : Int)
    (hsorted : sorted.Sorted (· < ·)) (hhi : hi < (sorted.length : Int)) :
    binary_search_go sorted tgt lo hi ≠ -1 ↔
      ∃ i : Nat, lo ≤ i ∧ (i : Int) ≤ hi ∧ sorted[i]? = some tgt := by
  induction lo, hi using binary_search_go.induct sorted tgt with
  | case1 lo hi hle hfound =>
    rw [binary_search_go]
    rw [dif_pos hle, if_pos hfound]
    have hmid_lo : (lo : Int) ≤ ((lo : Int) + hi) / 2 := by omega
    have hmid_hi : ((lo : Int) + hi) / 2 ≤ hi := by omega
    have hmid_lt : (((lo : Int) + hi) / 2).toNat < sorted.length := by omega
    constructor
    · intro _
      refine ⟨(((lo : Int) + hi) / 2).toNat, by omega, by omega, ?_⟩
      rw [← hfound, List.getD_eq_getElem?_getD]
      cases hx : sorted[(((lo : Int) + hi) / 2).toNat]? with
      | none =>
        rw [List.getElem?_eq_none_iff] at hx
        omega
      | some x => rfl
    · intro _
      omega
  | case2 lo hi hle hfound hlt ih =>
    rw [binary_search_go]
    rw [dif_pos hle, if_neg hfound, if_pos hlt]
    have hmid_lo : (lo : Int) ≤ ((lo : Int) + hi) / 2 := by omega
    have hmid_hi : ((lo : Int) + hi) / 2 ≤ hi := by omega
    have hmid_lt : (((lo : Int) + hi) / 2).toNat < sorted.length := by omega
    rw [ih hhi]
    constructor
    · rintro ⟨i, hi1, hi2, hi3⟩
      exact ⟨i, by omega, hi2, hi3⟩
    · rintro ⟨i, hi1, hi2, hi3⟩
      refine ⟨i, ?_, hi2, hi3⟩
      -- entries at or below mid are below tgt
      by_contra hc
      have hij : i ≤ (((lo : Int) + hi) / 2).toNat := by omega
      have hi_lt : i < sorted.length := by
        by_contra hc2
        rw [List.getElem?_eq_none (by omega)] at hi3
        simp at hi3
      have hle2 : sorted.getD i 0 ≤
          sorted.getD (((lo : Int) + hi) / 2).toNat 0 := by
        rcases Nat.lt_or_ge i (((lo : Int) + hi) / 2).toNat with hij2 | hij2
        · have := (List.pairwise_iff_getElem.mp hsorted) i
            (((lo : Int) + hi) / 2).toNat hi_lt hmid_lt hij2
          rw [List.getD_eq_getElem?_getD, List.getD_eq_getElem?_getD,
            List.getElem?_eq_getElem hi_lt, List.getElem?_eq_getElem hmid_lt]
          exact le_of_lt this
        · have : i = (((lo : Int) + hi) / 2).toNat := by omega
          rw [this]
      have hgd : sorted.getD i 0 = tgt := by
        rw [List.getD_eq_getElem?_getD, hi3]
        rfl
      omega
  | case3 lo hi hle hfound hlt ih =>
    rw [binary_search_go]
    rw [dif_pos hle, if_neg hfound, if_neg hlt]
    have hmid_lo : (lo : Int) ≤ ((lo : Int) + hi) / 2 := by omega
    have hmid_hi : ((lo : Int) + hi) / 2 ≤ hi := by omega
    have hmid_lt : (((lo : Int) + hi) / 2).toNat < sorted.length := by omega
    rw [ih (by omega)]
    constructor
    · rintro ⟨i, hi1, hi2, hi3⟩
      exact ⟨i, hi1, by omega, hi3⟩
    · rintro ⟨i, hi1, hi2, hi3⟩
      refine ⟨i, hi1, ?_, hi3⟩
      -- entries at or above mid are above tgt
      by_contra hc
      have hij : (((lo : Int) + hi) / 2).toNat ≤ i := by omega
      have hi_lt : i < sorted.length := by
        by_contra hc2
        rw [List.getElem?_eq_none (by omega)] at hi3
        simp at hi3
      have hge2 : sorted.getD (((lo : Int) + hi) / 2).toNat 0 ≤
          sorted.getD i 0 := by
        rcases Nat.lt_or_ge (((lo : Int) + hi) / 2).toNat i with hij2 | hij2
        · have := (List.pairwise_iff_getElem.mp hsorted)
            (((lo : Int) + hi) / 2).toNat i hmid_lt hi_lt hij2
          rw [List.getD_eq_getElem?_getD, List.getD_eq_getElem?_getD,
            List.getElem?_eq_getElem hi_lt, List.getElem?_eq_getElem hmid_lt]
          exact le_of_lt this
        · have : i = (((lo : Int) + hi) / 2).toNat := by omega
          rw [this]
      have hgd : sorted.getD i 0 = tgt := by
        rw [List.getD_eq_getElem?_getD, hi3]
        rfl
      have hup : sorted.getD (((lo : Int) + hi) / 2).toNat 0 ≤ tgt := by
        rw [← hgd]
        exact hge2
      exact hfound (le_antisymm hup (Nat.not_lt.mp hlt))
  | case4 lo hi hgt =>
    rw [binary_search_go, dif_neg hgt]
    constructor
    · intro h
      exact absurd rfl h
    · rintro ⟨i, hi1, hi2, -⟩
      omega

/-- `has_component` via binary search on the sorted signature. -/
def has_component (signature : List Nat) (c : Nat) : Bool :=
  binary_search signature c != -1

/-- On a strictly sorted signature the binary search decides
membership. -/
theorem has_component_iff (signature : List Nat) (c : Nat)
    (hsorted : signature.Sorted (· < ·)) :
    has_component signature c = true ↔ c ∈ signature := by
  rw [has_component, bne_iff_ne, binary_search,
    binary_search_go_found signature c 0 _ hsorted (by omega)]
  rw [List.mem_iff_getElem?]
  constructor
  · rintro ⟨i, -, -, hi3⟩
    exact ⟨i, hi3⟩
  · rintro ⟨i, hi⟩
    have : i < signature.length := by
      by_contra hc
      rw [List.getElem?_eq_none (by omega)] at hi
      simp at hi
    exact ⟨i, by omega, by omega, hi⟩

/-! ## Sorted insertion (`archetype/archetype_registry.ts`)

`sorted_insert` walks the sorted array and inserts `id` before the
first strictly greater element (equal elements are passed over); the
recursion below is that loop. -/

def sorted_insert (sorted : List Nat) (id : Nat) : List Nat :=
  match sorted with
  | [] => [id]
  | x :: xs => if id < x then id :: x :: xs else x :: sorted_insert xs id

theorem mem_sorted_insert (l : List Nat) (c a : Nat) :
    a ∈ sorted_insert l c ↔ a = c ∨ a ∈ l := by
  induction l with
  | nil => simp [sorted_insert]
  | cons x xs ih =>
    simp only [sorted_insert]
    split
    · simp
    · simp only [List.mem_cons, ih]
      tauto

theorem sorted_insert_perm (l : List Nat) (c : Nat) :
    (sorted_insert l c).Perm (c :: l) := by
  induction l with
  | nil => simp [sorted_insert]
  | cons x xs ih =>
    simp only [sorted_insert]
    split
    · exact List.Perm.refl _
    · exact (List.Perm.cons x ih).trans (List.Perm.swap c x xs)

theorem sorted_insert_sorted_le (l : List Nat) (c : Nat)
    (h : l.Sorted (· ≤ ·)) : (sorted_insert l c).Sorted (· ≤ ·) := by
  induction l with
  | nil => simp [sorted_insert]
  | cons x xs ih =>
    rw [List.sorted_cons] at h
    obtain ⟨hx, hxs⟩ := h
    simp only [sorted_insert]
    split
    · rw [List.sorted_cons]
      refine ⟨?_, by rw [List.sorted_cons]; exact ⟨hx, hxs⟩⟩
      intro b hb
      rcases List.mem_cons.mp hb with hb | hb
      · omega
      · have := hx b hb
        omega
    · rw [List.sorted_cons]
      refine ⟨?_, ih hxs⟩
      intro b hb
      rcases (mem_sorted_insert xs c b).mp hb with hb | hb
      · omega
      · exact hx b hb

theorem sorted_insert_sorted_lt (l : List Nat) (c : Nat)
    (h : l.Sorted (· < ·)) (hmem : c ∉ l) :
    (sorted_insert l c).Sorted (· < ·) := by
  induction l with
  | nil => simp [sorted_insert]
  | cons x xs ih =>
    rw [List.sorted_cons] at h
    obtain ⟨hx, hxs⟩ := h
    have hcx : c ≠ x := fun hcontra => hmem (by rw [hcontra]; exact .head _)
    have hmem' : c ∉ xs := fun hcontra => hmem (.tail _ hcontra)
    simp only [sorted_insert]
    split
    · rw [List.sorted_cons]
      refine ⟨?_, by rw [List.sorted_cons]; exact ⟨hx, hxs⟩⟩
      intro b hb
      rcases List.mem_cons.mp hb with hb | hb
      · omega
      · have := hx b hb
        omega
    · rw [List.sorted_cons]
      refine ⟨?_, ih hxs hmem'⟩
      intro b hb
      rcases (mem_sorted_insert xs c b).mp hb with hb | hb
      · omega
      · exact hx b hb

theorem filter_sorted_insert (l : List Nat) (c : Nat) (hmem : c ∉ l) :
    (sorted_insert l c).filter (· != c) = l := by
  induction l with
  | nil => simp [sorted_insert]
  | cons x xs ih =>
    have hcx : x ≠ c := fun hcontra => hmem (by rw [← hcontra]; exact .head _)
    have hmem' : c ∉ xs := fun hcontra => hmem (.tail _ hcontra)
    have hothers : xs.filter (· != c) = xs := by
      rw [List.filter_eq_self]
      intro b hb
      simp only [bne_iff_ne, ne_eq]
      intro hcontra
      exact hmem' (hcontra ▸ hb)
    simp only [sorted_insert]
    split
    · rw [List.filter_cons, List.filter_cons]
      simp [hcx, hothers]
    · rw [List.filter_cons]
      simp [hcx, ih hmem']

theorem sorted_insert_all_lt (l : List Nat) (c : Nat)
    (h : ∀ b ∈ l, c < b) : sorted_insert l c = c :: l := by
  cases l with
  | nil => rfl
  | cons x xs =>
    simp only [sorted_insert]
    rw [if_pos (h x (.head _))]

theorem sorted_insert_filter (l : List Nat) (c : Nat)
    (h : l.Sorted (· < ·)) (hmem : c ∈ l) :
    sorted_insert (l.filter (· != c)) c = l := by
  induction l with
  | nil => simp at hmem
  | cons x xs ih =>
    rw [List.sorted_cons] at h
    obtain ⟨hx, hxs⟩ := h
    by_cases hxc : x = c
    · subst hxc
      have hnx : x ∉ xs := fun hcontra => by
        have := hx x hcontra
        omega
      rw [List.filter_cons, if_neg (by simp)]
      have hothers : xs.filter (· != x) = xs := by
        rw [List.filter_eq_self]
        intro b hb
        simp only [bne_iff_ne, ne_eq]
        intro hcontra
        exact hnx (hcontra ▸ hb)
      rw [hothers]
      exact sorted_insert_all_lt xs x hx
    · have hmem' : c ∈ xs := by
        rcases List.mem_cons.mp hmem with hc | hc
        · exact absurd hc.symm hxc
        · exact hc
      have hxlt : x < c := hx c hmem'
      rw [List.filter_cons, if_pos (by simp [hxc])]
      simp only [sorted_insert]
      rw [if_neg (by omega)]
      rw [ih hxs hmem']

theorem sorted_insert_inj (l1 l2 : List Nat) (c : Nat)
    (h1 : c ∉ l1) (h2 : c ∉ l2)
    (heq : sorted_insert l1 c = sorted_insert l2 c) : l1 = l2 := by
  have := congrArg (List.filter (· != c)) heq
  rwa [filter_sorted_insert l1 c h1, filter_sorted_insert l2 c h2] at this

/-- `[...signature].sort((a, b) => a - b)`: numeric ascending sort,
modelled extensionally by insertion sort (any correct sort of a list
yields the same sorted permutation). -/
def sort_ids (l : List Nat) : List Nat :=
  l.foldl sorted_insert []

theorem sort_ids_go_sorted (l : List Nat) :
    ∀ acc : List Nat, acc.Sorted (· ≤ ·) →
      (l.foldl sorted_insert acc).Sorted (· ≤ ·) := by
  induction l with
  | nil => exact fun acc h => h
  | cons x xs ih =>
    intro acc h
    exact ih _ (sorted_insert_sorted_le acc x h)

theorem sort_ids_go_perm (l : List Nat) :
    ∀ acc : List Nat, (l.foldl sorted_insert acc).Perm (acc ++ l) := by
  induction l with
  | nil => simp
  | cons x xs ih =>
    intro acc
    refine (ih (sorted_insert acc x)).trans ?_
    refine (List.Perm.append_right xs (sorted_insert_perm acc x)).trans ?_
    exact List.perm_middle.symm

theorem sort_ids_sorted (l : List Nat) : (sort_ids l).Sorted (· ≤ ·) :=
  sort_ids_go_sorted l [] (by simp)

theorem sort_ids_perm (l : List Nat) : (sort_ids l).Perm l :=
  sort_ids_go_perm l []

theorem sort_ids_canonical (l l' : List Nat) (h : l.Perm l') :
    sort_ids l = sort_ids l' :=
  List.eq_of_perm_of_sorted
    ((sort_ids_perm l).trans (h.trans (sort_ids_perm l').symm))
    (sort_ids_sorted l) (sort_ids_sorted l')

/-- A strictly sorted list is its own insertion sort (used to relate
`get_or_create` on an already-sorted signature to the sorted path). -/
theorem sort_ids_of_sorted (l : List Nat) (h : l.Sorted (· ≤ ·)) :
    sort_ids l = l :=
  List.eq_of_perm_of_sorted (sort_ids_perm l) (sort_ids_sorted l) h

/-! ## ArchetypeRegistry (`archetype/archetype_registry.ts`)

Archetypes live in a dense array by ID; the signature-deduplication
map `archetype_map : hash → ArchetypeID[]` and the component index
`component_id → Set<ArchetypeID>` are modelled as total functions with
empty defaults (`Map.get` miss).  Edges live on each archetype as a
`component_id → edge` map. -/

structure ArchetypeEdge where
  add : Option Nat
  remove : Option Nat
  deriving DecidableEq, Repr

structure RegArchetype where
  signature : List Nat
  edges : Nat → Option ArchetypeEdge

def emptyRegArchetype : RegArchetype := ⟨[], fun _ => none⟩

structure RegState where
  archetypes : List RegArchetype
  archetype_map : Nat → List Nat
  next_archetype_id : Nat
  component_index : Nat → List Nat

/-- The signature of archetype `i` (the dev-checked `get`). -/
def RegState.sig (s : RegState) (i : Nat) : List Nat :=
  (s.archetypes.getD i emptyRegArchetype).signature

/-- `get_edge(c)?.add`. -/
def RegState.edge_add (s : RegState) (i c : Nat) : Option Nat :=
  ((s.archetypes.getD i emptyRegArchetype).edges c).bind (fun e => e.add)

/-- `get_edge(c)?.remove`. -/
def RegState.edge_rem (s : RegState) (i c : Nat) : Option Nat :=
  ((s.archetypes.getD i emptyRegArchetype).edges c).bind (fun e => e.remove)

/-- FNV-1a over a sorted ComponentID array (`hash_signature`).
`Math.imul` is the wrapping 32-bit product, modelled `% 2 ^ 32`
(signed/unsigned recoding is bijective, so Map keys bucket
identically). -/
def hash_signature (sig : List Nat) : Nat :=
  sig.foldl (fun h c => ((h ^^^ c) * 0x01000193) % 2 ^ 32) 0x811c9dc5

/-- `signatures_equal`: length then element-wise comparison, i.e. list
equality. -/
def signatures_equal (a b : List Nat) : Bool := a == b

/-- `get_or_create_sorted`: look the signature up in the hash bucket;
on a miss allocate a fresh `Archetype`, append it to the dense array
and its bucket, and index it under every component of the signature
(`Set.add`: append if absent). -/
def register_new_archetype (s : RegState) (sorted : List Nat) : RegState :=
  { archetypes := s.archetypes ++ [⟨sorted, fun _ => none⟩],
    archetype_map := fun h =>
      if h = hash_signature sorted
      then s.archetype_map h ++ [s.next_archetype_id]
      else s.archetype_map h,
    next_archetype_id := s.next_archetype_id + 1,
    component_index := fun c =>
      if c ∈ sorted then
        if s.next_archetype_id ∈ s.component_index c
        then s.component_index c
        else s.component_index c ++ [s.next_archetype_id]
      else s.component_index c }

def get_or_create_sorted (s : RegState) (sorted : List Nat) :
    Nat × RegState :=
  match (s.archetype_map (hash_signature sorted)).find?
      (fun i => signatures_equal (s.sig i) sorted) with
  | some i => (i, s)
  | none => (s.next_archetype_id, register_new_archetype s sorted)

/-- `get_or_create`: sort a copy of the signature, then dedup-lookup. -/
def get_or_create (s : RegState) (signature : List Nat) : Nat × RegState :=
  get_or_create_sorted s (sort_ids signature)

/-- `set_edge` on one archetype of the dense array (out-of-range is
impossible through the dev-checked `get`; `List.set` is then exact). -/
def RegState.with_edge (s : RegState) (i c : Nat) (e : ArchetypeEdge) :
    RegState :=
  let a := s.archetypes.getD i emptyRegArchetype
  let modified : RegArchetype :=
    { a with edges := fun c' => if c' = c then some e else a.edges c' }
  { s with archetypes := s.archetypes.set i modified }

/-- `cache_edge(from, to, component_id)`: forward edge
`from --add c--> to` and reverse edge `to --remove c--> from`, each
merged into the archetype's existing edge record (`?? {add: null,
remove: null}`). -/
def cache_edge (s : RegState) (a b c : Nat) : RegState :=
  let s1 := s.with_edge a c
    { ((s.archetypes.getD a emptyRegArchetype).edges c).getD ⟨none, none⟩
      with add := some b }
  s1.with_edge b c
    { ((s1.archetypes.getD b emptyRegArchetype).edges c).getD ⟨none, none⟩
      with remove := some a }

/-- `resolve_add`: identity when the archetype already has the
component, else the cached edge, else create the target by sorted
insertion and cache the edge bidirectionally. -/
def resolve_add (s : RegState) (archetype_id c : Nat) : Nat × RegState :=
  if has_component (s.sig archetype_id) c then (archetype_id, s)
  else
    match s.edge_add archetype_id c with
    | some target => (target, s)
    | none =>
      match get_or_create_sorted s (sorted_insert (s.sig archetype_id) c) with
      | (target, s1) => (target, cache_edge s1 archetype_id target c)

/-- `resolve_remove`: identity when the component is absent, else the
cached edge, else create the target by filtering the signature and
cache the edge bidirectionally (reversed: `target --add--> current`). -/
def resolve_remove (s : RegState) (archetype_id c : Nat) : Nat × RegState :=
  if ¬ has_component (s.sig archetype_id) c then (archetype_id, s)
  else
    match s.edge_rem archetype_id c with
    | some target => (target, s)
    | none =>
      match get_or_create_sorted s
          ((s.sig archetype_id).filter (· != c)) with
      | (target, s1) => (target, cache_edge s1 target archetype_id c)

/-- Registry bookkeeping invariant: the next ID is the dense length,
signatures are unique across archetypes, and the dedup map is exactly
the hash-bucketing of the dense array. -/
def RegInv (s : RegState) : Prop :=
  s.next_archetype_id = s.archetypes.length ∧
  (∀ i j, i < s.archetypes.length → j < s.archetypes.length →
    s.sig i = s.sig j → i = j) ∧
  (∀ h i, i ∈ s.archetype_map h →
    i < s.archetypes.length ∧ hash_signature (s.sig i) = h) ∧
  (∀ i, i < s.archetypes.length →
    i ∈ s.archetype_map (hash_signature (s.sig i)))

/-- All stored signatures strictly ascending (spec §8). -/
def RegSorted (s : RegState) : Prop :=
  ∀ i, i < s.archetypes.length → (s.sig i).Sorted (· < ·)

theorem getD_append_lt (l : List RegArchetype) (x d : RegArchetype)
    (j : Nat) (h : j < l.length) : (l ++ [x]).getD j d = l.getD j d := by
  rw [List.getD_eq_getElem?_getD, List.getD_eq_getElem?_getD,
    List.getElem?_append_left h]

theorem getD_append_len (l : List RegArchetype) (x d : RegArchetype) :
    (l ++ [x]).getD l.length d = x := by
  rw [List.getD_eq_getElem?_getD, List.getElem?_concat_length]
  rfl

/-- A `get_or_create_sorted` hit: when some archetype already has the
signature, its ID is returned and the state is untouched. -/
theorem get_or_create_sorted_hit (s : RegState) (σ : List Nat) (j : Nat)
    (hinv : RegInv s) (hj : j < s.archetypes.length) (hsig : s.sig j = σ) :
    get_or_create_sorted s σ = (j, s) := by
  obtain ⟨hnext, huniq, hmap1, hmap2⟩ := hinv
  have hjj := hmap2 j hj
  rw [hsig] at hjj
  cases hf : (s.archetype_map (hash_signature σ)).find?
      (fun i => signatures_equal (s.sig i) σ) with
  | none =>
    exfalso
    have := List.find?_eq_none.mp hf j hjj
    simp [signatures_equal, hsig] at this
  | some i =>
    have hpred := List.find?_some hf
    have hmem := List.mem_of_find?_eq_some hf
    have hieq : s.sig i = σ := by
      simpa [signatures_equal] using hpred
    have hi_lt := (hmap1 _ i hmem).1
    have hij : i = j := huniq i j hi_lt hj (by rw [hieq, hsig])
    rw [get_or_create_sorted, hf, hij]

/-- A `get_or_create_sorted` miss: a fresh archetype is appended with
the given signature, empty edges, and the invariant is preserved; the
existing dense prefix is untouched. -/
theorem get_or_create_sorted_miss (s : RegState) (σ : List Nat)
    (hinv : RegInv s) (hmiss : ∀ j, j < s.archetypes.length → s.sig j ≠ σ) :
    get_or_create_sorted s σ = (s.archetypes.length, register_new_archetype s σ) ∧
      RegInv (register_new_archetype s σ) ∧
      (register_new_archetype s σ).archetypes.length = s.archetypes.length + 1 ∧
      (register_new_archetype s σ).sig s.archetypes.length = σ ∧
      (∀ j, j < s.archetypes.length →
        (register_new_archetype s σ).archetypes.getD j emptyRegArchetype =
          s.archetypes.getD j emptyRegArchetype) ∧
      (((register_new_archetype s σ).archetypes.getD s.archetypes.length
        emptyRegArchetype).edges = fun _ => none) := by
  obtain ⟨hnext, huniq, hmap1, hmap2⟩ := hinv
  have hf : (s.archetype_map (hash_signature σ)).find?
      (fun i => signatures_equal (s.sig i) σ) = none := by
    rw [List.find?_eq_none]
    intro i hi
    have hi_lt := (hmap1 _ i hi).1
    have := hmiss i hi_lt
    simp [signatures_equal, this]
  have hsig_lt : ∀ j, j < s.archetypes.length →
      (register_new_archetype s σ).sig j = s.sig j := by
    intro j hjlt
    simp only [RegState.sig, register_new_archetype]
    rw [getD_append_lt _ _ _ _ hjlt]
  have hsig_len : (register_new_archetype s σ).sig s.archetypes.length = σ := by
    simp only [RegState.sig, register_new_archetype]
    rw [getD_append_len]
  have hlen : (register_new_archetype s σ).archetypes.length =
      s.archetypes.length + 1 := by
    simp [register_new_archetype]
  refine ⟨by rw [get_or_create_sorted, hf, hnext], ?_, hlen, hsig_len, ?_, ?_⟩
  · refine ⟨by simp [register_new_archetype]; omega, ?_, ?_, ?_⟩
    · intro i j hi hj hij
      rw [hlen] at hi hj
      rcases Nat.lt_or_ge i s.archetypes.length with hi' | hi' <;>
        rcases Nat.lt_or_ge j s.archetypes.length with hj' | hj'
      · rw [hsig_lt i hi', hsig_lt j hj'] at hij
        exact huniq i j hi' hj' hij
      · have hjl : j = s.archetypes.length := by omega
        subst hjl
        rw [hsig_lt i hi', hsig_len] at hij
        exact absurd hij (hmiss i hi')
      · have hil : i = s.archetypes.length := by omega
        subst hil
        rw [hsig_len, hsig_lt j hj'] at hij
        exact absurd hij.symm (hmiss j hj')
      · omega
    · intro h i hi
      simp only [register_new_archetype] at hi
      rw [hlen]
      by_cases hh : h = hash_signature σ
      · rw [if_pos hh] at hi
        rcases List.mem_append.mp hi with hi | hi
        · obtain ⟨h1, h2⟩ := hmap1 h i hi
          exact ⟨by omega, by rw [hsig_lt i h1, h2]⟩
        · simp only [List.mem_singleton] at hi
          subst hi
          rw [hnext]
          exact ⟨by omega, by rw [hsig_len, hh]⟩
      · rw [if_neg hh] at hi
        obtain ⟨h1, h2⟩ := hmap1 h i hi
        exact ⟨by omega, by rw [hsig_lt i h1, h2]⟩
    · intro i hi
      rw [hlen] at hi
      rcases Nat.lt_or_ge i s.archetypes.length with hi' | hi'
      · rw [hsig_lt i hi']
        simp only [register_new_archetype]
        by_cases hh : hash_signature (s.sig i) = hash_signature σ
        · rw [if_pos hh]
          exact List.mem_append.mpr (.inl (hmap2 i hi'))
        · rw [if_neg hh]
          exact hmap2 i hi'
      · have hil : i = s.archetypes.length := by omega
        subst hil
        rw [hsig_len]
        simp only [register_new_archetype, if_pos rfl]
        exact List.mem_append.mpr (.inr (by rw [hnext]; exact .head _))
  · intro j hjlt
    simp only [register_new_archetype]
    rw [getD_append_lt _ _ _ _ hjlt]
  · simp only [register_new_archetype]
    rw [getD_append_len]

/-- C4. Archetype deduplication: under the registry invariant, a second
`get_or_create` with a signature equal as a set (any order of IDs)
returns the ID the first call produced and leaves the registry state
completely unchanged — so at most one archetype exists per signature,
and repeating a creation sequence adds no archetypes. -/
theorem archetype_dedup (s : RegState) (l l' : List Nat)
    (hinv : RegInv s) (hperm : l.Perm l') :
    (get_or_create (get_or_create s l).2 l').1 = (get_or_create s l).1 ∧
    (get_or_create (get_or_create s l).2 l').2 = (get_or_create s l).2 := by
  simp only [get_or_create]
  rw [sort_ids_canonical l' l hperm.symm]
  by_cases hex : ∃ j, j < s.archetypes.length ∧ s.sig j = sort_ids l
  · obtain ⟨j, hj, hsig⟩ := hex
    have h1 := get_or_create_sorted_hit s (sort_ids l) j hinv hj hsig
    rw [h1]
    simp [h1]
  · push_neg at hex
    obtain ⟨heq, hinv', hlen', hsig', -, -⟩ :=
      get_or_create_sorted_miss s (sort_ids l) hinv hex
    rw [heq]
    have h2 := get_or_create_sorted_hit (register_new_archetype s (sort_ids l))
      (sort_ids l) s.archetypes.length hinv' (by omega) hsig'
    simp [h2]

theorem RegInv_empty : RegInv ⟨[], fun _ => [], 0, fun _ => []⟩ := by
  refine ⟨rfl, ?_, ?_, ?_⟩
  · intro i j hi
    simp at hi
  · intro h i hi
    simp at hi
  · intro i hi
    simp at hi

/-- C4 witness: the empty registry with the permuted signatures
`[2, 1]` and `[1, 2]`. -/
theorem archetype_dedup_witness :
    (get_or_create
        (get_or_create ⟨[], fun _ => [], 0, fun _ => []⟩ [2, 1]).2 [1, 2]).1 =
      (get_or_create ⟨[], fun _ => [], 0, fun _ => []⟩ [2, 1]).1 ∧
    (get_or_create
        (get_or_create ⟨[], fun _ => [], 0, fun _ => []⟩ [2, 1]).2 [1, 2]).2 =
      (get_or_create ⟨[], fun _ => [], 0, fun _ => []⟩ [2, 1]).2 :=
  archetype_dedup ⟨[], fun _ => [], 0, fun _ => []⟩ [2, 1] [1, 2]
    RegInv_empty (by decide)

/-! ### Transition-edge cache coherence -/

/-- Out-of-range archetypes have no edges (the dense-array default). -/
theorem edge_add_oob (s : RegState) (j c : Nat)
    (h : s.archetypes.length ≤ j) : s.edge_add j c = none := by
  simp [RegState.edge_add, List.getD_eq_getElem?_getD,
    List.getElem?_eq_none h, emptyRegArchetype]

theorem edge_rem_oob (s : RegState) (j c : Nat)
    (h : s.archetypes.length ≤ j) : s.edge_rem j c = none := by
  simp [RegState.edge_rem, List.getD_eq_getElem?_getD,
    List.getElem?_eq_none h, emptyRegArchetype]

theorem with_edge_getD (s : RegState) (i c : Nat) (e : ArchetypeEdge)
    (j : Nat) :
    (s.with_edge i c e).archetypes.getD j emptyRegArchetype =
      if j = i ∧ i < s.archetypes.length then
        { signature := (s.archetypes.getD i emptyRegArchetype).signature,
          edges := fun c' => if c' = c then some e
            else (s.archetypes.getD i emptyRegArchetype).edges c' }
      else s.archetypes.getD j emptyRegArchetype := by
  simp only [RegState.with_edge]
  rw [List.getD_eq_getElem?_getD, List.getElem?_set]
  by_cases hij : i = j
  · subst hij
    by_cases hlt : i < s.archetypes.length
    · rw [if_pos rfl, if_pos hlt, if_pos ⟨rfl, hlt⟩]
      rfl
    · rw [if_pos rfl, if_neg hlt, if_neg (by tauto)]
      rw [List.getD_eq_getElem?_getD, List.getElem?_eq_none (by omega)]
  · rw [if_neg hij, if_neg (by tauto)]
    rw [List.getD_eq_getElem?_getD]

theorem with_edge_length (s : RegState) (i c : Nat) (e : ArchetypeEdge) :
    (s.with_edge i c e).archetypes.length = s.archetypes.length := by
  simp [RegState.with_edge]

theorem with_edge_sig (s : RegState) (i c : Nat) (e : ArchetypeEdge)
    (j : Nat) : (s.with_edge i c e).sig j = s.sig j := by
  simp only [RegState.sig]
  rw [with_edge_getD]
  split
  · rename_i hcond
    obtain ⟨hji, -⟩ := hcond
    subst hji
    rfl
  · rfl

theorem with_edge_edge_add (s : RegState) (i c : Nat) (e : ArchetypeEdge)
    (j c' : Nat) :
    (s.with_edge i c e).edge_add j c' =
      if j = i ∧ i < s.archetypes.length ∧ c' = c then e.add
      else s.edge_add j c' := by
  simp only [RegState.edge_add]
  rw [with_edge_getD]
  by_cases h1 : j = i ∧ i < s.archetypes.length
  · rw [if_pos h1]
    obtain ⟨hji, hlt⟩ := h1
    subst hji
    by_cases h2 : c' = c
    · rw [if_pos ⟨rfl, hlt, h2⟩]
      simp only
      rw [if_pos h2]
      rfl
    · rw [if_neg (by tauto)]
      simp only
      rw [if_neg h2]
  · rw [if_neg h1, if_neg (by tauto)]

theorem with_edge_edge_rem (s : RegState) (i c : Nat) (e : ArchetypeEdge)
    (j c' : Nat) :
    (s.with_edge i c e).edge_rem j c' =
      if j = i ∧ i < s.archetypes.length ∧ c' = c then e.remove
      else s.edge_rem j c' := by
  simp only [RegState.edge_rem]
  rw [with_edge_getD]
  by_cases h1 : j = i ∧ i < s.archetypes.length
  · rw [if_pos h1]
    obtain ⟨hji, hlt⟩ := h1
    subst hji
    by_cases h2 : c' = c
    · rw [if_pos ⟨rfl, hlt, h2⟩]
      simp only
      rw [if_pos h2]
      rfl
    · rw [if_neg (by tauto)]
      simp only
      rw [if_neg h2]
  · rw [if_neg h1, if_neg (by tauto)]

theorem with_edge_map (s : RegState) (i c : Nat) (e : ArchetypeEdge) :
    (s.with_edge i c e).archetype_map = s.archetype_map := rfl

theorem with_edge_next (s : RegState) (i c : Nat) (e : ArchetypeEdge) :
    (s.with_edge i c e).next_archetype_id = s.next_archetype_id := rfl

/-- The merged edge record written by `cache_edge` keeps the other
direction: the `add`-side write preserves the existing `remove` target
and vice versa. -/
theorem cache_edge_spec (s : RegState) (a b c : Nat)
    (ha : a < s.archetypes.length) (hb : b < s.archetypes.length)
    (hab : a ≠ b) :
    (∀ j c', (cache_edge s a b c).edge_add j c' =
      if j = a ∧ c' = c then some b else s.edge_add j c') ∧
    (∀ j c', (cache_edge s a b c).edge_rem j c' =
      if j = b ∧ c' = c then some a else s.edge_rem j c') ∧
    (∀ j, (cache_edge s a b c).sig j = s.sig j) ∧
    (cache_edge s a b c).archetypes.length = s.archetypes.length := by
  have hlen1 : (s.with_edge a c
      { ((s.archetypes.getD a emptyRegArchetype).edges c).getD ⟨none, none⟩
        with add := some b }).archetypes.length = s.archetypes.length :=
    with_edge_length ..
  refine ⟨?_, ?_, ?_, ?_⟩
  · intro j c'
    simp only [cache_edge]
    rw [with_edge_edge_add, hlen1]
    by_cases h2 : j = b ∧ b < s.archetypes.length ∧ c' = c
    · rw [if_pos h2]
      obtain ⟨hjb, -, hc'⟩ := h2
      -- the add side of b's record was not touched by the first write
      rw [if_neg (by rintro ⟨hja, -⟩; omega)]
      rw [with_edge_getD, if_neg (by rintro ⟨hba, -⟩; exact hab hba.symm)]
      rw [hjb, hc']
      simp only [RegState.edge_add]
      cases hx : (s.archetypes.getD b emptyRegArchetype).edges c <;> simp [hx]
    · rw [if_neg h2, with_edge_edge_add]
      by_cases h1 : j = a ∧ a < s.archetypes.length ∧ c' = c
      · rw [if_pos h1, if_pos ⟨h1.1, h1.2.2⟩]
      · rw [if_neg h1]
        rw [if_neg (by rintro ⟨hja, hc'⟩; exact h1 ⟨hja, ha, hc'⟩)]
  · intro j c'
    simp only [cache_edge]
    rw [with_edge_edge_rem, hlen1]
    by_cases h2 : j = b ∧ b < s.archetypes.length ∧ c' = c
    · rw [if_pos h2, if_pos ⟨h2.1, h2.2.2⟩]
    · rw [if_neg h2, with_edge_edge_rem]
      by_cases h1 : j = a ∧ a < s.archetypes.length ∧ c' = c
      · rw [if_pos h1]
        rw [if_neg (by rintro ⟨hjb, hc'⟩; exact h2 ⟨hjb, hb, hc'⟩)]
        obtain ⟨hja, -, hc'⟩ := h1
        -- the first write keeps a's existing remove target
        rw [hja, hc']
        simp only [RegState.edge_rem]
        cases hx : (s.archetypes.getD a emptyRegArchetype).edges c <;> simp [hx]
      · rw [if_neg h1]
        rw [if_neg (by rintro ⟨hjb, hc'⟩; exact h2 ⟨hjb, hb, hc'⟩)]
  · intro j
    simp only [cache_edge]
    rw [with_edge_sig, with_edge_sig]
  · simp only [cache_edge]
    rw [with_edge_length, hlen1]

theorem cache_edge_map (s : RegState) (a b c : Nat) :
    (cache_edge s a b c).archetype_map = s.archetype_map := rfl

theorem cache_edge_next (s : RegState) (a b c : Nat) :
    (cache_edge s a b c).next_archetype_id = s.next_archetype_id := rfl

/-- Edge-cache coherence: every cached `add` edge records a transition
to the sorted insertion of its component, every cached `remove` edge a
transition to the filtered signature, and the two directions always
point at each other. -/
def EdgeInv (s : RegState) : Prop :=
  (∀ a c b, s.edge_add a c = some b →
    a < s.archetypes.length ∧ b < s.archetypes.length ∧
    c ∉ s.sig a ∧ s.sig b = sorted_insert (s.sig a) c ∧
    s.edge_rem b c = some a) ∧
  (∀ b c a, s.edge_rem b c = some a →
    b < s.archetypes.length ∧ a < s.archetypes.length ∧
    c ∈ s.sig b ∧ s.sig a = (s.sig b).filter (· != c) ∧
    s.edge_add a c = some b)

theorem cache_preserves_reginv (s : RegState) (a t c : Nat)
    (hinv : RegInv s) (ha : a < s.archetypes.length)
    (ht : t < s.archetypes.length) (hat : a ≠ t) :
    RegInv (cache_edge s a t c) := by
  obtain ⟨-, -, hsg, hln⟩ := cache_edge_spec s a t c ha ht hat
  obtain ⟨hnext, huniq, hmap1, hmap2⟩ := hinv
  refine ⟨?_, ?_, ?_, ?_⟩
  · rw [cache_edge_next, hln, hnext]
  · intro i j hi hj hij
    rw [hln] at hi hj
    rw [hsg, hsg] at hij
    exact huniq i j hi hj hij
  · intro h i hi
    rw [cache_edge_map] at hi
    obtain ⟨h1, h2⟩ := hmap1 h i hi
    rw [hln, hsg]
    exact ⟨h1, h2⟩
  · intro i hi
    rw [hln] at hi
    rw [cache_edge_map, hsg]
    exact hmap2 i hi

theorem cache_preserves_edgeinv (s : RegState) (a t c : Nat)
    (hinv : RegInv s) (hedge : EdgeInv s)
    (ha : a < s.archetypes.length) (ht : t < s.archetypes.length)
    (hc : c ∉ s.sig a) (hsig : s.sig t = sorted_insert (s.sig a) c) :
    EdgeInv (cache_edge s a t c) := by
  obtain ⟨hnext, huniq, hmap1, hmap2⟩ := hinv
  have hat : a ≠ t := by
    intro hcontra
    subst hcontra
    have hperm := (sorted_insert_perm (s.sig a) c).length_eq
    rw [← hsig] at hperm
    simp at hperm
  obtain ⟨hadd, hrem, hsg, hln⟩ := cache_edge_spec s a t c ha ht hat
  constructor
  · intro i c' b' hb'
    rw [hadd] at hb'
    by_cases h1 : i = a ∧ c' = c
    · obtain ⟨hia, hcc⟩ := h1
      rw [if_pos ⟨hia, hcc⟩] at hb'
      obtain hbt := Option.some.inj hb'
      rw [hia, hcc, ← hbt]
      refine ⟨by omega, by omega, ?_, ?_, ?_⟩
      · rw [hsg]; exact hc
      · rw [hsg, hsg, hsig]
      · rw [hrem, if_pos ⟨rfl, rfl⟩]
    · rw [if_neg h1] at hb'
      obtain ⟨hi_lt, hb_lt, hcmem, hsigi, hrev⟩ := hedge.1 i c' b' hb'
      refine ⟨by omega, by omega, by rw [hsg]; exact hcmem,
        by rw [hsg, hsg]; exact hsigi, ?_⟩
      rw [hrem]
      by_cases h2 : b' = t ∧ c' = c
      · exfalso
        obtain ⟨hbt, hcc⟩ := h2
        rw [hbt, hcc, hsig] at hsigi
        have hia : i = a := by
          apply huniq i a hi_lt ha
          apply sorted_insert_inj _ _ c _ hc hsigi.symm
          rw [← hcc]
          exact hcmem
        exact h1 ⟨hia, hcc⟩
      · rw [if_neg h2]
        exact hrev
  · intro j c' x hx
    rw [hrem] at hx
    by_cases h2 : j = t ∧ c' = c
    · obtain ⟨hjt, hcc⟩ := h2
      rw [if_pos ⟨hjt, hcc⟩] at hx
      obtain hxa := Option.some.inj hx
      rw [hjt, hcc, ← hxa]
      refine ⟨by omega, by omega, ?_, ?_, ?_⟩
      · rw [hsg, hsig]
        exact (mem_sorted_insert _ c c).mpr (.inl rfl)
      · rw [hsg, hsg, hsig, filter_sorted_insert _ _ hc]
      · rw [hadd, if_pos ⟨rfl, rfl⟩]
    · rw [if_neg h2] at hx
      obtain ⟨hj_lt, hx_lt, hcmem, hsigx, hrev⟩ := hedge.2 j c' x hx
      refine ⟨by omega, by omega, by rw [hsg]; exact hcmem,
        by rw [hsg, hsg]; exact hsigx, ?_⟩
      rw [hadd]
      by_cases h1 : x = a ∧ c' = c
      · exfalso
        obtain ⟨hxa, hcc⟩ := h1
        rw [hxa, hcc] at hrev
        obtain ⟨-, -, -, hsigj, -⟩ := hedge.1 a c j hrev
        rw [← hsig] at hsigj
        have hjt : j = t := huniq j t hj_lt ht hsigj
        exact h2 ⟨hjt, hcc⟩
      · rw [if_neg h1]
        exact hrev

theorem cache_preserves_regsorted (s : RegState) (a t c : Nat)
    (hsorted : RegSorted s) (ha : a < s.archetypes.length)
    (ht : t < s.archetypes.length) (hat : a ≠ t) :
    RegSorted (cache_edge s a t c) := by
  obtain ⟨-, -, hsg, hln⟩ := cache_edge_spec s a t c ha ht hat
  intro i hi
  rw [hln] at hi
  rw [hsg]
  exact hsorted i hi

theorem register_getD_edges (s : RegState) (σ : List Nat) (j : Nat) :
    ((register_new_archetype s σ).archetypes.getD j emptyRegArchetype).edges =
      (s.archetypes.getD j emptyRegArchetype).edges := by
  rcases Nat.lt_trichotomy j s.archetypes.length with h | h | h
  · simp only [register_new_archetype]
    rw [getD_append_lt _ _ _ _ h]
  · simp only [register_new_archetype]
    rw [h, getD_append_len, List.getD_eq_getElem?_getD,
      List.getElem?_eq_none (le_refl _)]
    rfl
  · simp only [register_new_archetype]
    rw [List.getD_eq_getElem?_getD, List.getElem?_eq_none (by simp; omega),
      List.getD_eq_getElem?_getD, List.getElem?_eq_none (by omega)]

theorem register_edge_add_eq (s : RegState) (σ : List Nat) (j c : Nat) :
    (register_new_archetype s σ).edge_add j c = s.edge_add j c := by
  simp only [RegState.edge_add]
  rw [register_getD_edges]

theorem register_edge_rem_eq (s : RegState) (σ : List Nat) (j c : Nat) :
    (register_new_archetype s σ).edge_rem j c = s.edge_rem j c := by
  simp only [RegState.edge_rem]
  rw [register_getD_edges]

theorem register_sig_lt (s : RegState) (σ : List Nat) (j : Nat)
    (h : j < s.archetypes.length) :
    (register_new_archetype s σ).sig j = s.sig j := by
  simp only [RegState.sig, register_new_archetype]
  rw [getD_append_lt _ _ _ _ h]

theorem register_preserves_edgeinv (s : RegState) (σ : List Nat)
    (hedge : EdgeInv s) : EdgeInv (register_new_archetype s σ) := by
  have hlen : (register_new_archetype s σ).archetypes.length =
      s.archetypes.length + 1 := by
    simp [register_new_archetype]
  constructor
  · intro a c b hb
    rw [register_edge_add_eq] at hb
    obtain ⟨h1, h2, h3, h4, h5⟩ := hedge.1 a c b hb
    refine ⟨by omega, by omega, ?_, ?_, ?_⟩
    · rw [register_sig_lt _ _ _ h1]; exact h3
    · rw [register_sig_lt _ _ _ h1, register_sig_lt _ _ _ h2]; exact h4
    · rw [register_edge_rem_eq]; exact h5
  · intro b c a ha
    rw [register_edge_rem_eq] at ha
    obtain ⟨h1, h2, h3, h4, h5⟩ := hedge.2 b c a ha
    refine ⟨by omega, by omega, ?_, ?_, ?_⟩
    · rw [register_sig_lt _ _ _ h1]; exact h3
    · rw [register_sig_lt _ _ _ h1, register_sig_lt _ _ _ h2]; exact h4
    · rw [register_edge_add_eq]; exact h5

theorem register_preserves_regsorted (s : RegState) (σ : List Nat)
    (hsorted : RegSorted s) (hσ : σ.Sorted (· < ·)) :
    RegSorted (register_new_archetype s σ) := by
  intro i hi
  have hlen : (register_new_archetype s σ).archetypes.length =
      s.archetypes.length + 1 := by
    simp [register_new_archetype]
  rw [hlen] at hi
  rcases Nat.lt_or_ge i s.archetypes.length with h | h
  · rw [register_sig_lt _ _ _ h]
    exact hsorted i h
  · have hil : i = s.archetypes.length := by omega
    subst hil
    have : (register_new_archetype s σ).sig s.archetypes.length = σ := by
      simp only [RegState.sig, register_new_archetype]
      rw [getD_append_len]
    rw [this]
    exact hσ

/-- `c` never survives the removal filter. -/
theorem not_mem_filter_ne (l : List Nat) (c : Nat) :
    c ∉ l.filter (· != c) := by
  intro h
  have := (List.mem_filter.mp h).2
  simp at this

theorem resolve_add_preserves (s : RegState) (a c : Nat)
    (hinv : RegInv s) (hsorted : RegSorted s) (hedge : EdgeInv s)
    (ha : a < s.archetypes.length) :
    RegInv (resolve_add s a c).2 ∧ RegSorted (resolve_add s a c).2 ∧
      EdgeInv (resolve_add s a c).2 := by
  rw [resolve_add]
  by_cases h1 : has_component (s.sig a) c
  · rw [if_pos h1]
    exact ⟨hinv, hsorted, hedge⟩
  · rw [if_neg h1]
    cases he : s.edge_add a c with
    | some t => exact ⟨hinv, hsorted, hedge⟩
    | none =>
      have hsorted_a := hsorted a ha
      have hcmem : c ∉ s.sig a := fun hmem =>
        h1 ((has_component_iff _ _ hsorted_a).mpr hmem)
      by_cases hex : ∃ j, j < s.archetypes.length ∧
          s.sig j = sorted_insert (s.sig a) c
      · obtain ⟨j, hj, hsigj⟩ := hex
        rw [get_or_create_sorted_hit s _ j hinv hj hsigj]
        have hat : a ≠ j := by
          intro hcontra
          rw [← hcontra] at hsigj
          have hperm := (sorted_insert_perm (s.sig a) c).length_eq
          rw [← hsigj] at hperm
          simp at hperm
        exact ⟨cache_preserves_reginv s a j c hinv ha hj hat,
          cache_preserves_regsorted s a j c hsorted ha hj hat,
          cache_preserves_edgeinv s a j c hinv hedge ha hj hcmem hsigj⟩
      · push_neg at hex
        obtain ⟨heq, hinv', hlen', hsig', hpre, -⟩ :=
          get_or_create_sorted_miss s _ hinv hex
        rw [heq]
        have hsiga : (register_new_archetype s
            (sorted_insert (s.sig a) c)).sig a = s.sig a :=
          register_sig_lt _ _ _ ha
        have ha' : a < (register_new_archetype s
            (sorted_insert (s.sig a) c)).archetypes.length := by omega
        have ht' : s.archetypes.length < (register_new_archetype s
            (sorted_insert (s.sig a) c)).archetypes.length := by omega
        have hat : a ≠ s.archetypes.length := by omega
        have hsorted' := register_preserves_regsorted s _ hsorted
          (sorted_insert_sorted_lt _ _ hsorted_a hcmem)
        have hedge' := register_preserves_edgeinv s
          (sorted_insert (s.sig a) c) hedge
        refine ⟨cache_preserves_reginv _ a _ c hinv' ha' ht' hat,
          cache_preserves_regsorted _ a _ c hsorted' ha' ht' hat,
          cache_preserves_edgeinv _ a _ c hinv' hedge' ha' ht' ?_ ?_⟩
        · rw [hsiga]
          exact hcmem
        · rw [hsig', hsiga]

theorem resolve_remove_preserves (s : RegState) (a c : Nat)
    (hinv : RegInv s) (hsorted : RegSorted s) (hedge : EdgeInv s)
    (ha : a < s.archetypes.length) :
    RegInv (resolve_remove s a c).2 ∧ RegSorted (resolve_remove s a c).2 ∧
      EdgeInv (resolve_remove s a c).2 := by
  rw [resolve_remove]
  by_cases h1 : has_component (s.sig a) c
  · rw [if_neg (by simpa using h1)]
    cases he : s.edge_rem a c with
    | some t => exact ⟨hinv, hsorted, hedge⟩
    | none =>
      have hsorted_a := hsorted a ha
      have hcmem : c ∈ s.sig a := (has_component_iff _ _ hsorted_a).mp h1
      have hfs : sorted_insert ((s.sig a).filter (· != c)) c = s.sig a :=
        sorted_insert_filter _ _ hsorted_a hcmem
      by_cases hex : ∃ j, j < s.archetypes.length ∧
          s.sig j = (s.sig a).filter (· != c)
      · obtain ⟨j, hj, hsigj⟩ := hex
        rw [get_or_create_sorted_hit s _ j hinv hj hsigj]
        have hat : j ≠ a := by
          intro hcontra
          rw [hcontra] at hsigj
          have : c ∉ s.sig a := by
            rw [hsigj]
            exact not_mem_filter_ne _ c
          exact this hcmem
        refine ⟨cache_preserves_reginv s j a c hinv hj ha hat,
          cache_preserves_regsorted s j a c hsorted hj ha hat,
          cache_preserves_edgeinv s j a c hinv hedge hj ha ?_ ?_⟩
        · rw [hsigj]
          exact not_mem_filter_ne _ c
        · rw [hsigj, hfs]
      · push_neg at hex
        obtain ⟨heq, hinv', hlen', hsig', hpre, -⟩ :=
          get_or_create_sorted_miss s _ hinv hex
        rw [heq]
        have hsiga : (register_new_archetype s
            ((s.sig a).filter (· != c))).sig a = s.sig a :=
          register_sig_lt _ _ _ ha
        have ha' : a < (register_new_archetype s
            ((s.sig a).filter (· != c))).archetypes.length := by omega
        have ht' : s.archetypes.length < (register_new_archetype s
            ((s.sig a).filter (· != c))).archetypes.length := by omega
        have hat : s.archetypes.length ≠ a := by omega
        have hsorted' := register_preserves_regsorted s _ hsorted
          (List.Pairwise.filter (· != c) hsorted_a)
        have hedge' := register_preserves_edgeinv s
          ((s.sig a).filter (· != c)) hedge
        refine ⟨cache_preserves_reginv _ _ a c hinv' ht' ha' hat,
          cache_preserves_regsorted _ _ a c hsorted' ht' ha' hat,
          cache_preserves_edgeinv _ _ a c hinv' hedge' ht' ha' ?_ ?_⟩
        · rw [hsig']
          exact not_mem_filter_ne _ c
        · rw [hsiga, hsig', hfs]
  · rw [if_pos (by simpa using h1)]
    exact ⟨hinv, hsorted, hedge⟩

/-- Registry states reachable from a fresh registry (whose constructor
creates the empty archetype) through `resolve_add` and
`resolve_remove` on valid archetype IDs. -/
inductive RegReachable : RegState → Prop where
  | init : RegReachable
      (get_or_create_sorted ⟨[], fun _ => [], 0, fun _ => []⟩ []).2
  | step_add (s : RegState) (a c : Nat) : RegReachable s →
      a < s.archetypes.length → RegReachable (resolve_add s a c).2
  | step_remove (s : RegState) (a c : Nat) : RegReachable s →
      a < s.archetypes.length → RegReachable (resolve_remove s a c).2

theorem reachable_invariants (s : RegState) (h : RegReachable s) :
    RegInv s ∧ RegSorted s ∧ EdgeInv s := by
  induction h with
  | init =>
    obtain ⟨heq, hinv', hlen', hsig', -, -⟩ :=
      get_or_create_sorted_miss ⟨[], fun _ => [], 0, fun _ => []⟩ []
        RegInv_empty (by intro j hj; simp at hj)
    rw [heq]
    refine ⟨hinv', ?_, ?_⟩
    · exact register_preserves_regsorted _ _ (by intro i hi; simp at hi)
        List.sorted_nil
    · exact register_preserves_edgeinv _ _ ⟨
        by intro a c b hb; rw [edge_add_oob _ _ _ (by simp)] at hb; simp at hb,
        by intro b c a ha; rw [edge_rem_oob _ _ _ (by simp)] at ha; simp at ha⟩
  | step_add s a c _ hlt ih =>
    obtain ⟨hinv, hsorted, hedge⟩ := ih
    exact resolve_add_preserves s a c hinv hsorted hedge hlt
  | step_remove s a c _ hlt ih =>
    obtain ⟨hinv, hsorted, hedge⟩ := ih
    exact resolve_remove_preserves s a c hinv hsorted hedge hlt

/-- C8. Transition-edge bidirectionality: in every registry state
reachable through `resolve_add` and `resolve_remove`,
`A.edges[c].add == B` holds exactly when `B.edges[c].remove == A`,
because `cache_edge` always writes both directions together and every
overwrite rewrites the same value (by signature dedup). -/
theorem transition_edge_bidirectional (s : RegState) (h : RegReachable s)
    (a b c : Nat) :
    s.edge_add a c = some b ↔ s.edge_rem b c = some a := by
  obtain ⟨-, -, hedge⟩ := reachable_invariants s h
  constructor
  · intro hx
    exact (hedge.1 a c b hx).2.2.2.2
  · intro hx
    exact (hedge.2 b c a hx).2.2.2.2

/-- C8 witness: the registry after resolving one component addition on
the empty archetype. -/
theorem transition_edge_bidirectional_witness :
    (resolve_add (get_or_create_sorted
        ⟨[], fun _ => [], 0, fun _ => []⟩ []).2 0 5).2.edge_add 0 5 = some 1 ↔
    (resolve_add (get_or_create_sorted
        ⟨[], fun _ => [], 0, fun _ => []⟩ []).2 0 5).2.edge_rem 1 5 = some 0 :=
  transition_edge_bidirectional _ (.step_add _ 0 5 .init (by decide)) 0 1 5

/-! ## Schedule (`schedule/schedule.ts`)

Per-phase topological sort, Kahn's algorithm with a min-heap keyed by
insertion order.  Descriptors are modelled by their (unique) IDs; the
`before`/`after` JS `Set`s by insertion-ordered lists.  `adjacency` is
a `Map<id, Set<id>>` (set insertion = append-if-absent), `in_degree` a
`Map<id, number>` whose values may only be touched through the
node-set guard.  The binary min-heap is modelled by popping a
minimal-key element (unique for the schedule's distinct monotonic
insertion orders); the loop fuel `nodes.length` bounds the iteration
count exactly, since every pop emits one node and a node enters the
heap at most once (its in-degree only decreases, so it crosses zero at
most once, and seeded nodes have no incoming declarations). -/

structure SystemNode where
  id : Nat
  insertion_order : Nat
  before : List Nat
  after : List Nat

/-- `Set.add` on an insertion-ordered list. -/
def list_set_add (l : List Nat) (x : Nat) : List Nat :=
  if x ∈ l then l else l ++ [x]

/-- Add one edge `u → v`: `adjacency.get(u).add(v)` and
`in_degree.set(v, in_degree.get(v) + 1)`. -/
def add_edge (g : (Nat → List Nat) × (Nat → Int)) (u v : Nat) :
    (Nat → List Nat) × (Nat → Int) :=
  (fun j => if j = u then list_set_add (g.1 u) v else g.1 j,
   fun j => if j = v then g.2 v + 1 else g.2 j)

/-- Build adjacency sets and in-degree counts: per node, `before`
entries give edges `node → target`, `after` entries edges
`dep → node`; entries not in the phase's node set are skipped. -/
def build_graph (nodes : List SystemNode) :
    (Nat → List Nat) × (Nat → Int) :=
  nodes.foldl
    (fun g node =>
      let g1 := node.before.foldl
        (fun g t => if (nodes.map (fun n => n.id)).contains t
          then add_edge g node.id t else g) g
      node.after.foldl
        (fun g d => if (nodes.map (fun n => n.id)).contains d
          then add_edge g d node.id else g) g1)
    (fun _ => [], fun _ => 0)

/-- Insertion order of a scheduled descriptor. -/
def order_of (nodes : List SystemNode) (id : Nat) : Nat :=
  match nodes.find? (fun n => n.id == id) with
  | some n => n.insertion_order
  | none => 0

/-- Binary min-heap pop: a minimal-key element (the first such) and
the remaining heap. -/
def pop_min (key : Nat → Nat) (heap : List Nat) :
    Option (Nat × List Nat) :=
  match heap with
  | [] => none
  | x :: _ =>
    let m := heap.foldl (fun acc y => if key y < key acc then y else acc) x
    some (m, heap.erase m)

/-- Kahn's main loop: pop the minimum, decrement its neighbors, push
the newly-zero ones, append to the result. -/
def kahn_loop (adj : Nat → List Nat) (deg : Nat → Int) (key : Nat → Nat)
    (heap : List Nat) (result : List Nat) : Nat → List Nat
  | 0 => result
  | fuel + 1 =>
    match pop_min key heap with
    | none => result
    | some (current, rest) =>
      let step := (adj current).foldl
        (fun (p : (Nat → Int) × List Nat) n =>
          ((fun j => if j = n then p.1 n - 1 else p.1 j),
           if p.1 n - 1 = 0 then p.2 ++ [n] else p.2))
        (deg, [])
      kahn_loop adj step.1 key (rest ++ step.2) (result ++ [current]) fuel

/-- `topological_sort`: build the graph, seed the heap with
zero-in-degree nodes, run Kahn's loop, and fail with the circular
dependency error when fewer nodes than the input were emitted. -/
def topological_sort (nodes : List SystemNode) :
    Except ECSErr (List Nat) :=
  if nodes.isEmpty then .ok []
  else
    match build_graph nodes with
    | (adj, deg) =>
      let seeds := nodes.foldl
        (fun acc n => if deg n.id = 0 then acc ++ [n.id] else acc) []
      let result := kahn_loop adj deg (order_of nodes) seeds [] nodes.length
      if result.length ≠ nodes.length then
        .error .CIRCULAR_SYSTEM_DEPENDENCY
      else .ok result

/-- Decidable check that `order` linearizes every declared constraint
among scheduled systems: each `before` target scheduled in the phase
comes later, each `after` dependency earlier. -/
def respects_constraints (nodes : List SystemNode) (order : List Nat) :
    Bool :=
  (order.length == nodes.length) &&
  nodes.all (fun n => order.contains n.id) &&
  nodes.all (fun n =>
    n.before.all (fun t => !(nodes.map (fun m => m.id)).contains t ||
      decide (order.indexOf n.id < order.indexOf t)) &&
    n.after.all (fun d => !(nodes.map (fun m => m.id)).contains d ||
      decide (order.indexOf d < order.indexOf n.id)))

/-- C6 (code bug).  Declaring the same constraint through both sides —
system 0 `before` system 1 and system 1 `after` system 0 — double
counts the in-degree of system 1 while the adjacency `Set` dedups the
edge, so only one decrement ever arrives: the sort emits only system 0
and raises `CIRCULAR_SYSTEM_DEPENDENCY`, although the constraint graph
is the single edge `0 → 1`, which the order `[0, 1]` linearizes. -/
theorem schedule_double_edge_false_cycle :
    topological_sort [⟨0, 0, [1], []⟩, ⟨1, 1, [], [0]⟩] =
      .error .CIRCULAR_SYSTEM_DEPENDENCY ∧
    respects_constraints [⟨0, 0, [1], []⟩, ⟨1, 1, [], [0]⟩] [0, 1] = true := by
  constructor
  · rfl
  · rfl

/-- `remove_system` (phase-local): find the node, swap-remove it with
the last entry, then delete dangling `before`/`after` references to it
from every remaining node (`Set.delete` = filter). Unscheduled systems
are a no-op. -/
def remove_system (nodes : List SystemNode) (sys : Nat) :
    List SystemNode :=
  match nodes.findIdx? (fun n => n.id == sys) with
  | none => nodes
  | some index =>
    let nodes1 :=
      if index ≠ nodes.length - 1 then
        (nodes.set index
          (nodes.getD (nodes.length - 1) ⟨0, 0, [], []⟩)).dropLast
      else nodes.dropLast
    nodes1.map (fun n =>
      { n with before := n.before.filter (· != sys),
               after := n.after.filter (· != sys) })

/-- Drop `before`/`after` references to descriptors outside the node
set. -/
def restrict_node (ids : List Nat) (n : SystemNode) : SystemNode :=
  { n with before := n.before.filter (fun t => ids.contains t),
           after := n.after.filter (fun t => ids.contains t) }

theorem foldl_guard_filter {G : Type} (l : List Nat) (p : Nat → Bool)
    (f : G → Nat → G) (init : G) :
    (l.filter p).foldl (fun g t => if p t then f g t else g) init =
      l.foldl (fun g t => if p t then f g t else g) init := by
  induction l generalizing init with
  | nil => rfl
  | cons x xs ih =>
    rw [List.filter_cons]
    by_cases hx : p x
    · rw [if_pos hx]
      simp only [List.foldl_cons]
      rw [if_pos hx]
      exact ih _
    · rw [if_neg (by simpa using hx)]
      simp only [List.foldl_cons]
      rw [if_neg hx]
      exact ih _

theorem restrict_ids (nodes : List SystemNode) :
    (nodes.map (restrict_node (nodes.map (fun n => n.id)))).map
      (fun n => n.id) = nodes.map (fun n => n.id) := by
  rw [List.map_map]
  rfl

theorem order_of_map_restrict (nodes : List SystemNode) (ids : List Nat)
    (id : Nat) :
    order_of (nodes.map (restrict_node ids)) id = order_of nodes id := by
  simp only [order_of]
  induction nodes with
  | nil => rfl
  | cons x xs ih =>
    cases hx : (x.id == id) with
    | true =>
      simp only [List.map_cons, List.find?_cons, restrict_node, hx]
    | false =>
      simp only [List.map_cons, List.find?_cons, restrict_node, hx]
      exact ih

theorem restrict_order_of (nodes : List SystemNode) (id : Nat) :
    order_of (nodes.map (restrict_node (nodes.map (fun n => n.id)))) id =
      order_of nodes id :=
  order_of_map_restrict nodes _ id

theorem restrict_build_graph (nodes : List SystemNode) :
    build_graph (nodes.map (restrict_node (nodes.map (fun n => n.id)))) =
      build_graph nodes := by
  simp only [build_graph]
  rw [restrict_ids, List.foldl_map]
  congr 1
  funext g node
  simp only [restrict_node]
  rw [foldl_guard_filter, foldl_guard_filter]

/-- C10.  Ordering constraints that reference a descriptor not
scheduled in the phase contribute no edge and no in-degree — the sort
behaves exactly as if they were absent, raising no error — and
`remove_system` deletes dangling references to the removed system from
every remaining node's `before`/`after` sets. -/
theorem schedule_dangling_references :
    (∀ nodes : List SystemNode,
      topological_sort
        (nodes.map (restrict_node (nodes.map (fun n => n.id)))) =
        topological_sort nodes) ∧
    (∀ (nodes : List SystemNode) (sys : Nat),
      (nodes.findIdx? (fun n => n.id == sys)).isSome = true →
      ∀ n ∈ remove_system nodes sys, sys ∉ n.before ∧ sys ∉ n.after) := by
  constructor
  · intro nodes
    simp only [topological_sort]
    rw [restrict_build_graph]
    have hids := restrict_ids nodes
    have hlen : (nodes.map (restrict_node
        (nodes.map (fun n => n.id)))).length = nodes.length := by simp
    have hkey : order_of (nodes.map (restrict_node
        (nodes.map (fun n => n.id)))) = order_of nodes := by
      funext id
      exact restrict_order_of nodes id
    have hempty : (nodes.map (restrict_node
        (nodes.map (fun n => n.id)))).isEmpty = nodes.isEmpty := by
      cases nodes <;> rfl
    rw [hempty, hkey, hlen]
    cases hb : build_graph nodes with
    | mk adj deg =>
      have hseeds : (nodes.map (restrict_node
          (nodes.map (fun n => n.id)))).foldl
            (fun acc n => if deg n.id = 0 then acc ++ [n.id] else acc) [] =
          nodes.foldl
            (fun acc n => if deg n.id = 0 then acc ++ [n.id] else acc) [] := by
        rw [List.foldl_map]
        rfl
      rw [hseeds]
  · intro nodes sys hfound n hn
    simp only [remove_system] at hn
    cases hidx : nodes.findIdx? (fun n => n.id == sys) with
    | none =>
      rw [hidx] at hfound
      simp at hfound
    | some index =>
      rw [hidx] at hn
      simp only [List.mem_map] at hn
      obtain ⟨m, -, hm⟩ := hn
      constructor
      · rw [← hm]
        exact not_mem_filter_ne _ sys
      · rw [← hm]
        exact not_mem_filter_ne _ sys

/-- C10 witness: dangling references 7 (in a before set) and 9 (in an
after set) leave the sort unchanged on a concrete two-node phase, and
after removing system 0 the surviving node ⟨1, 1, [], [9]⟩ carries no
reference to 0. -/
theorem schedule_dangling_references_witness :
    topological_sort
        (([⟨0, 0, [1, 7], []⟩, ⟨1, 1, [], [9]⟩] : List SystemNode).map
          (restrict_node
            (([⟨0, 0, [1, 7], []⟩, ⟨1, 1, [], [9]⟩] : List SystemNode).map
              (fun n => n.id)))) =
      topological_sort [⟨0, 0, [1, 7], []⟩, ⟨1, 1, [], [9]⟩] ∧
    ((0 : Nat) ∉ (⟨1, 1, [], [9]⟩ : SystemNode).before ∧
      (0 : Nat) ∉ (⟨1, 1, [], [9]⟩ : SystemNode).after) :=
  ⟨schedule_dangling_references.1 [⟨0, 0, [1, 7], []⟩, ⟨1, 1, [], [9]⟩],
   schedule_dangling_references.2 [⟨0, 0, [1, 7], []⟩, ⟨1, 1, [], [0, 9]⟩] 0
     rfl ⟨1, 1, [], [9]⟩ (List.Mem.head _)⟩

/-! ## Query cache (SystemContext._resolve_query / _find_cached, Query.and) -/

/-- Modelled from the spec: `BitSet` (bitset/bitset.ts is absent from src;
only its documentation and callers are present) packs one bit per component
into 32-bit words. We model the abstract mask as a `Nat`; `set(i)` ors in
the shifted bit. -/
def bitset_set (m : Nat) (i : Nat) : Nat := m ||| (1 <<< i)

/-- Modelled from the spec: `BitSet.has(i)` tests bit `i`. -/
def bitset_has (m : Nat) (i : Nat) : Bool := m.testBit i

/-- Modelled from the spec: the little-endian 32-bit words of a mask
(trailing zero words trimmed). -/
def to_words (n : Nat) : List Nat :=
  if h : n = 0 then [] else n % 2 ^ 32 :: to_words (n / 2 ^ 32)
termination_by n
decreasing_by omega

/-- Modelled from the spec: `BitSet.hash()` is the FNV-1a hash of the mask
words. Only its functionality (equal masks hash equal) matters below. -/
def bitset_hash (m : Nat) : Nat :=
  (to_words m).foldl (fun h w => ((h ^^^ w) * 0x01000193) % 2 ^ 32) 0x811c9dc5

/-- `mask.set` folded over a component list: how `query(...)` fills its
scratch mask from the arguments. -/
def mask_of (l : List Nat) : Nat := l.foldl bitset_set 0

/-- `Query.and`: copy the include mask and set each component not already
present (the accompanying defs-array bookkeeping carries no weight here). -/
def query_and (inc : Nat) (comps : List Nat) : Nat :=
  comps.foldl (fun m c => if bitset_has m c then m else bitset_set m c) inc

/-- The combined cache key of `_resolve_query`. JS mixes with
`Math.imul` and `| 0` over signed 32-bit integers; we carry the unsigned
residues mod 2^32, which relabels keys injectively. -/
def query_key (inc : Nat) (exc any_of : Option Nat) : Nat :=
  (bitset_hash inc ^^^
      (((match exc with | some m => bitset_hash m | none => 0) *
        0x9e3779b9) % 2 ^ 32)) ^^^
    (((match any_of with | some m => bitset_hash m | none => 0) *
      0x517cc1b7) % 2 ^ 32)

/-- One `QueryCacheEntry`: the three masks plus the cached `Query`.
Reference identity of the returned `Query` (and its live archetype array)
is modelled by the registration number `store.register_query` hands out,
carried in `query`. -/
structure QueryCacheEntry where
  include_mask : Nat
  exclude_mask : Option Nat
  any_of_mask : Option Nat
  query : Nat

/-- SystemContext state: the triple-keyed bucket cache plus the next
registration number. -/
structure CtxState where
  cache : Nat → List QueryCacheEntry
  next_query : Nat

/-- The per-entry test of `_find_cached`: include masks equal, and each
optional mask null on both sides or equal. -/
def masks_match (e : QueryCacheEntry) (inc : Nat) (exc any_of : Option Nat) :
    Bool :=
  e.include_mask == inc &&
  (match exc with
   | none => e.exclude_mask.isNone
   | some m =>
     match e.exclude_mask with
     | none => false
     | some m2 => m2 == m) &&
  (match any_of with
   | none => e.any_of_mask.isNone
   | some m =>
     match e.any_of_mask with
     | none => false
     | some m2 => m2 == m)

/-- `_find_cached`: scan the hash bucket for an entry matching all three
masks (a missing bucket is the empty list). -/
def _find_cached (cache : Nat → List QueryCacheEntry) (key : Nat)
    (inc : Nat) (exc any_of : Option Nat) : Option QueryCacheEntry :=
  (cache key).find? (fun e => masks_match e inc exc any_of)

/-- `bucket_push` on a miss: append the new entry to the key's bucket and
advance the registration counter. -/
def cache_insert (s : CtxState) (key : Nat) (en : QueryCacheEntry) :
    CtxState :=
  { cache := fun k => if k = key then s.cache key ++ [en] else s.cache k,
    next_query := s.next_query + 1 }

/-- `_resolve_query`: hash the triple, return the cached query on a hit;
otherwise register a fresh query and push a cache entry. -/
def _resolve_query (s : CtxState) (inc : Nat) (exc any_of : Option Nat) :
    Nat × CtxState :=
  match _find_cached s.cache (query_key inc exc any_of) inc exc any_of with
  | some e => (e.query, s)
  | none =>
    (s.next_query,
     cache_insert s (query_key inc exc any_of)
       ⟨inc, exc, any_of, s.next_query⟩)

theorem resolve_hit (s : CtxState) (inc : Nat) (exc any_of : Option Nat)
    (e : QueryCacheEntry)
    (hf : _find_cached s.cache (query_key inc exc any_of) inc exc any_of =
      some e) :
    _resolve_query s inc exc any_of = (e.query, s) := by
  simp only [_resolve_query]
  rw [hf]

theorem resolve_miss (s : CtxState) (inc : Nat) (exc any_of : Option Nat)
    (hf : _find_cached s.cache (query_key inc exc any_of) inc exc any_of =
      none) :
    _resolve_query s inc exc any_of =
      (s.next_query,
       cache_insert s (query_key inc exc any_of)
         ⟨inc, exc, any_of, s.next_query⟩) := by
  simp only [_resolve_query]
  rw [hf]

theorem masks_match_self (inc : Nat) (exc any_of : Option Nat) (q : Nat) :
    masks_match ⟨inc, exc, any_of, q⟩ inc exc any_of = true := by
  cases exc <;> cases any_of <;> simp [masks_match]

theorem find_cached_insert (s : CtxState) (key : Nat)
    (en : QueryCacheEntry) (k inc : Nat) (exc any_of : Option Nat) :
    _find_cached (cache_insert s key en).cache k inc exc any_of =
      if k = key then
        ((s.cache key).find? (fun e => masks_match e inc exc any_of)).or
          (([en] : List QueryCacheEntry).find?
            (fun e => masks_match e inc exc any_of))
      else _find_cached s.cache k inc exc any_of := by
  have hc : (cache_insert s key en).cache k =
      if k = key then s.cache key ++ [en] else s.cache k := rfl
  by_cases hk : k = key
  · rw [if_pos hk]
    simp only [_find_cached]
    rw [hc, if_pos hk, List.find?_append]
  · rw [if_neg hk]
    simp only [_find_cached]
    rw [hc, if_neg hk]

/-- A second request with the same triple immediately after the first
returns the same query and leaves the state untouched. -/
theorem resolve_stable (s : CtxState) (inc : Nat) (exc any_of : Option Nat)
    (q : Nat) (s1 : CtxState)
    (h : _resolve_query s inc exc any_of = (q, s1)) :
    _resolve_query s1 inc exc any_of = (q, s1) := by
  cases hf : _find_cached s.cache (query_key inc exc any_of) inc exc any_of
    with
  | some e =>
    rw [resolve_hit s inc exc any_of e hf] at h
    injection h with hq hs
    subst hq
    subst hs
    exact resolve_hit s inc exc any_of e hf
  | none =>
    rw [resolve_miss s inc exc any_of hf] at h
    injection h with hq hs
    subst hq
    subst hs
    refine resolve_hit _ inc exc any_of ⟨inc, exc, any_of, s.next_query⟩ ?_
    rw [find_cached_insert, if_pos rfl]
    have h1 : (s.cache (query_key inc exc any_of)).find?
        (fun e => masks_match e inc exc any_of) = none := hf
    rw [h1, Option.none_or]
    simp [List.find?, masks_match_self]

/-- Resolving any other triple preserves self-stability: a triple that
already resolves to `q` without changing the state still does so after an
arbitrary interleaved request. -/
theorem resolve_preserved (s : CtxState) (inc : Nat)
    (exc any_of : Option Nat) (q : Nat)
    (h : _resolve_query s inc exc any_of = (q, s))
    (inc2 : Nat) (exc2 any2 : Option Nat) :
    _resolve_query (_resolve_query s inc2 exc2 any2).2 inc exc any_of =
      (q, (_resolve_query s inc2 exc2 any2).2) := by
  have hfind : ∃ e,
      _find_cached s.cache (query_key inc exc any_of) inc exc any_of =
        some e ∧ e.query = q := by
    cases hf : _find_cached s.cache (query_key inc exc any_of) inc exc
      any_of with
    | some e =>
      rw [resolve_hit s inc exc any_of e hf] at h
      injection h with hq _
      exact ⟨e, rfl, hq⟩
    | none =>
      exfalso
      rw [resolve_miss s inc exc any_of hf] at h
      injection h with _ hs
      have hn : s.next_query + 1 = s.next_query :=
        congrArg CtxState.next_query hs
      exact Nat.succ_ne_self _ hn
  obtain ⟨e, hf, hq⟩ := hfind
  cases hf2 : _find_cached s.cache (query_key inc2 exc2 any2) inc2 exc2
    any2 with
  | some e2 =>
    rw [resolve_hit s inc2 exc2 any2 e2 hf2]
    exact h
  | none =>
    rw [resolve_miss s inc2 exc2 any2 hf2]
    dsimp only
    rw [← hq]
    apply resolve_hit
    rw [find_cached_insert]
    by_cases hk : query_key inc exc any_of = query_key inc2 exc2 any2
    · rw [if_pos hk, ← hk]
      have h1 : (s.cache (query_key inc exc any_of)).find?
          (fun e => masks_match e inc exc any_of) = some e := hf
      rw [h1]
      rfl
    · rw [if_neg hk]
      exact hf

/-- Sequences of `_resolve_query` calls from a state, used to speak about
arbitrary interleavings between two requests for the same triple. -/
inductive CtxSteps : CtxState → CtxState → Prop where
  | refl (s : CtxState) : CtxSteps s s
  | step (s s2 : CtxState) (inc : Nat) (exc any_of : Option Nat) :
      CtxSteps s s2 → CtxSteps s (_resolve_query s2 inc exc any_of).2

/-- C7. Query cache identity: once a triple (include, exclude, any_of)
has been resolved to query `q`, every later request for the same triple —
after any interleaved requests — returns the same `q` and leaves the
state untouched (the source returns the cached `Query` object itself, so
equal registration numbers mean the identical object and live archetype
array); the include mask built from a component list does not depend on
the order of the components; and `and(c)` with `c` already in the include
mask re-resolves the identical triple, returning the cached query
unchanged. -/
theorem query_cache_identity :
    (∀ (s : CtxState) (inc : Nat) (exc any_of : Option Nat) (q : Nat)
        (s1 s2 : CtxState),
      _resolve_query s inc exc any_of = (q, s1) → CtxSteps s1 s2 →
      _resolve_query s2 inc exc any_of = (q, s2)) ∧
    (∀ (l1 l2 : List Nat), l1.Perm l2 → mask_of l1 = mask_of l2) ∧
    (∀ (s : CtxState) (inc c : Nat) (exc any_of : Option Nat),
      bitset_has inc c = true →
      _resolve_query (_resolve_query s inc exc any_of).2
          (query_and inc [c]) exc any_of =
        ((_resolve_query s inc exc any_of).1,
         (_resolve_query s inc exc any_of).2)) := by
  refine ⟨?_, ?_, ?_⟩
  · intro s inc exc any_of q s1 s2 h hsteps
    have h1 := resolve_stable s inc exc any_of q s1 h
    induction hsteps with
    | refl => exact h1
    | step sb inc2 exc2 any2 hab ih =>
      exact resolve_preserved sb inc exc any_of q ih inc2 exc2 any2
  · intro l1 l2 hperm
    haveI : RightCommutative bitset_set :=
      ⟨fun m a b => by
        simp only [bitset_set]
        rw [Nat.lor_assoc, Nat.lor_assoc, Nat.lor_comm (1 <<< a)]⟩
    simp only [mask_of]
    exact hperm.foldl_eq 0
  · intro s inc c exc any_of hc
    have hmask : query_and inc [c] = inc := by
      simp [query_and, hc]
    rw [hmask]
    exact resolve_stable s inc exc any_of _ _ rfl

/-- C7 witness: on the empty cache, resolving include mask 3 twice yields
registration 0 both times with the state unchanged after the first miss;
[1, 2] and [2, 1] build the same mask; and(1) on a query whose include
mask already holds bit 1 returns the identical cached query. -/
theorem query_cache_identity_witness :
    _resolve_query (_resolve_query ⟨fun _ => [], 0⟩ 3 none none).2 3 none
        none = (0, (_resolve_query ⟨fun _ => [], 0⟩ 3 none none).2) ∧
    mask_of [1, 2] = mask_of [2, 1] ∧
    _resolve_query (_resolve_query ⟨fun _ => [], 0⟩ 3 none none).2
        (query_and 3 [1]) none none =
      ((_resolve_query ⟨fun _ => [], 0⟩ 3 none none).1,
       (_resolve_query ⟨fun _ => [], 0⟩ 3 none none).2) :=
  ⟨query_cache_identity.1 ⟨fun _ => [], 0⟩ 3 none none 0
      (_resolve_query ⟨fun _ => [], 0⟩ 3 none none).2
      (_resolve_query ⟨fun _ => [], 0⟩ 3 none none).2 rfl (.refl _),
   query_cache_identity.2.1 [1, 2] [2, 1] (by decide),
   query_cache_identity.2.2 ⟨fun _ => [], 0⟩ 3 1 none none (by decide)⟩

/-! ## Store deferred command buffers (flush_structural / flush_destroyed) -/

/-- Modelled from the spec: `store.ts` is absent from src (only its tests
and callers are present), so the Store's observable deferred-command state
is modelled from spec 4.6: aliveness, the has-component relation, and the
three pending buffers in insertion order. -/
structure StoreState where
  alive : Nat → Bool
  has_comp : Nat → Nat → Bool
  pending_add : List (Nat × Nat)
  pending_remove : List (Nat × Nat)
  pending_destroy : List Nat

/-- Modelled from the spec: apply one buffered component add; entries
whose entity is not alive at apply-time are silently skipped. -/
def apply_add (st : StoreState) (ec : Nat × Nat) : StoreState :=
  if st.alive ec.1 then
    { st with has_comp := fun e c =>
        if e = ec.1 ∧ c = ec.2 then true else st.has_comp e c }
  else st

/-- Modelled from the spec: apply one buffered component remove; entries
whose entity is not alive at apply-time are silently skipped. -/
def apply_remove (st : StoreState) (ec : Nat × Nat) : StoreState :=
  if st.alive ec.1 then
    { st with has_comp := fun e c =>
        if e = ec.1 ∧ c = ec.2 then false else st.has_comp e c }
  else st

/-- Modelled from the spec: `flush_structural` consumes the structural
buffers in insertion order, applying all adds first and all removes
second, then clears both buffers. -/
def flush_structural (s : StoreState) : StoreState :=
  let s1 := s.pending_add.foldl apply_add s
  let s2 := s.pending_remove.foldl apply_remove s1
  { s2 with pending_add := [], pending_remove := [] }

/-- Modelled from the spec: apply one buffered destruction, skipping
already-dead entries (double-destroy safe). -/
def apply_destroy (st : StoreState) (e : Nat) : StoreState :=
  if st.alive e then
    { st with alive := fun x => if x = e then false else st.alive x }
  else st

/-- Modelled from the spec: `flush_destroyed` consumes the destroy buffer
and clears it. -/
def flush_destroyed (s : StoreState) : StoreState :=
  { s.pending_destroy.foldl apply_destroy s with pending_destroy := [] }

/-- The full phase-boundary flush: structural changes first, destructions
after. -/
def flush (s : StoreState) : StoreState :=
  flush_destroyed (flush_structural s)

theorem apply_add_alive (st : StoreState) (x : Nat × Nat) :
    (apply_add st x).alive = st.alive := by
  simp only [apply_add]
  by_cases h : st.alive x.1 = true
  · rw [if_pos h]
  · rw [if_neg h]

theorem apply_remove_alive (st : StoreState) (x : Nat × Nat) :
    (apply_remove st x).alive = st.alive := by
  simp only [apply_remove]
  by_cases h : st.alive x.1 = true
  · rw [if_pos h]
  · rw [if_neg h]

theorem foldl_add_alive (l : List (Nat × Nat)) (st : StoreState) :
    (l.foldl apply_add st).alive = st.alive := by
  induction l generalizing st with
  | nil => rfl
  | cons x xs ih =>
    rw [List.foldl_cons, ih, apply_add_alive]

theorem foldl_remove_alive (l : List (Nat × Nat)) (st : StoreState) :
    (l.foldl apply_remove st).alive = st.alive := by
  induction l generalizing st with
  | nil => rfl
  | cons x xs ih =>
    rw [List.foldl_cons, ih, apply_remove_alive]

theorem flush_structural_alive (s : StoreState) :
    (flush_structural s).alive = s.alive := by
  have h : (flush_structural s).alive =
      (s.pending_remove.foldl apply_remove
        (s.pending_add.foldl apply_add s)).alive := rfl
  rw [h, foldl_remove_alive, foldl_add_alive]

theorem foldl_remove_keep_false (l : List (Nat × Nat)) (st : StoreState)
    (e X : Nat) (h : st.has_comp e X = false) :
    (l.foldl apply_remove st).has_comp e X = false := by
  induction l generalizing st with
  | nil => exact h
  | cons x xs ih =>
    rw [List.foldl_cons]
    apply ih
    simp only [apply_remove]
    by_cases ha : st.alive x.1 = true
    · rw [if_pos ha]
      dsimp only
      by_cases hx : e = x.1 ∧ X = x.2
      · rw [if_pos hx]
      · rw [if_neg hx]
        exact h
    · rw [if_neg ha]
      exact h

theorem foldl_remove_clears (l : List (Nat × Nat)) (st : StoreState)
    (e X : Nat) (halive : st.alive e = true) (hmem : (e, X) ∈ l) :
    (l.foldl apply_remove st).has_comp e X = false := by
  induction l generalizing st with
  | nil => cases hmem
  | cons x xs ih =>
    rw [List.foldl_cons]
    rcases List.mem_cons.mp hmem with hx | hx
    · apply foldl_remove_keep_false
      rw [← hx]
      simp only [apply_remove]
      rw [if_pos halive]
      dsimp only
      rw [if_pos ⟨rfl, rfl⟩]
    · refine ih _ ?_ hx
      rw [apply_remove_alive]
      exact halive

/-- C1. If a deferred add of component X and a deferred remove of X are
both buffered for the same live entity during one phase (in either buffer
order), `flush_structural` leaves the entity without X, because all
pending adds apply before any pending remove; the structural flush never
changes aliveness, and the full flush applies destructions only in the
subsequent `flush_destroyed` step. -/
theorem deferred_add_remove_ordering (s : StoreState) (e X : Nat)
    (halive : s.alive e = true)
    (_hadd : (e, X) ∈ s.pending_add) (hrem : (e, X) ∈ s.pending_remove) :
    (flush_structural s).has_comp e X = false ∧
    (∀ e2, (flush_structural s).alive e2 = s.alive e2) ∧
    flush s = flush_destroyed (flush_structural s) := by
  refine ⟨?_, ?_, rfl⟩
  · have h : (flush_structural s).has_comp =
        (s.pending_remove.foldl apply_remove
          (s.pending_add.foldl apply_add s)).has_comp := rfl
    rw [h]
    apply foldl_remove_clears _ _ _ _ _ hrem
    rw [foldl_add_alive]
    exact halive
  · intro e2
    exact congrFun (flush_structural_alive s) e2

/-- C1 witness: one entity, alive, with add (0, 1) and remove (0, 1) both
buffered; after the structural flush component 1 is absent and the entity
is still alive. -/
theorem deferred_add_remove_ordering_witness :
    (flush_structural
        ⟨fun _ => true, fun _ _ => false, [(0, 1)], [(0, 1)], []⟩).has_comp
      0 1 = false ∧
    (flush_structural
        ⟨fun _ => true, fun _ _ => false, [(0, 1)], [(0, 1)], []⟩).alive
      0 = true := by
  have h := deferred_add_remove_ordering
    ⟨fun _ => true, fun _ _ => false, [(0, 1)], [(0, 1)], []⟩ 0 1 rfl
    (List.Mem.head _) (List.Mem.head _)
  exact ⟨h.1, (h.2.1 0).trans rfl⟩

end Oecs
